import Mathlib

/-!
Verification development for the hostsctl persistent-store subsystem:
a shallow embedding of the hosts-file parser/serializer
(`internal/hosts/parser.go`, `internal/hosts/model.go`), the field
validators (`pkg/validation.go`), the store save/verify logic
(`internal/hosts/store.go`) and the advisory file lock
(`internal/lock/flock.go`), together with theorems about the embedded
definitions.

Go strings are embedded as `List Char`; Go `int` as `Int`; the
filesystem touched by the store as an association list from paths to
contents; the points at which an I/O primitive may fail as explicit
boolean fields of an environment record.
-/

set_option maxHeartbeats 1000000

namespace Hostsctl

/-- Go strings are modelled as lists of characters. -/
abbrev Str := List Char

/-! ## Character classes

`regexSpace` is the character class `\s` of Go's `regexp` package
(Perl class `[\t\n\f\r ]`).  `goIsSpace` is Go's `unicode.IsSpace`,
used by `strings.TrimSpace` and `strings.Fields`. -/

/-- The `\s` class of Go regexps: `[\t\n\f\r ]`. -/
def regexSpace (c : Char) : Bool :=
  let n := c.toNat
  n = 9 || n = 10 || n = 12 || n = 13 || n = 32

/-- Go's `unicode.IsSpace`: ASCII whitespace plus the Unicode space
characters (NEL, NBSP, ogham space, the U+2000 block, line/paragraph
separators, narrow NBSP, medium mathematical space, ideographic space). -/
def goIsSpace (c : Char) : Bool :=
  let n := c.toNat
  n = 9 || n = 10 || n = 11 || n = 12 || n = 13 || n = 32 ||
  n = 0x85 || n = 0xA0 || n = 0x1680 ||
  (0x2000 ≤ n && n ≤ 0x200A) ||
  n = 0x2028 || n = 0x2029 || n = 0x202F || n = 0x205F || n = 0x3000

/-- ASCII decimal digit, as checked by `char < '0' || char > '9'` in
`Parser.isValidIP`. -/
def isDigitCh (c : Char) : Bool :=
  48 ≤ c.toNat && c.toNat ≤ 57

/-- Hexadecimal digit, as checked in `Parser.isValidIPv6Part`. -/
def isHexCh (c : Char) : Bool :=
  isDigitCh c || (97 ≤ c.toNat && c.toNat ≤ 102) || (65 ≤ c.toNat && c.toNat ≤ 70)

/-- The regexp class `[a-zA-Z0-9]` of `hostnameRegex`. -/
def isAlnumCh (c : Char) : Bool :=
  isDigitCh c || (97 ≤ c.toNat && c.toNat ≤ 122) || (65 ≤ c.toNat && c.toNat ≤ 90)

/-! ## Basic string operations -/

/-- Length of the longest prefix of `cs` whose characters satisfy `p`. -/
def runLen (p : Char → Bool) : Str → Nat
  | [] => 0
  | c :: cs => if p c then runLen p cs + 1 else 0

/-- `strings.TrimSpace`, left half: drop leading `unicode.IsSpace` chars. -/
def goTrimLeft (cs : Str) : Str := cs.dropWhile goIsSpace

/-- `strings.TrimSpace`, right half. -/
def goTrimRight (cs : Str) : Str := (cs.reverse.dropWhile goIsSpace).reverse

/-- `strings.TrimSpace`. -/
def goTrimSpace (cs : Str) : Str := goTrimRight (goTrimLeft cs)

/-- Helper for `goFields`: `acc` is the (reversed) current token. -/
def goFieldsAux : Str → Str → List Str
  | [], acc => if acc.isEmpty then [] else [acc.reverse]
  | c :: rest, acc =>
    if goIsSpace c then
      if acc.isEmpty then goFieldsAux rest [] else acc.reverse :: goFieldsAux rest []
    else goFieldsAux rest (c :: acc)

/-- `strings.Fields`: split around runs of `unicode.IsSpace` characters. -/
def goFields (cs : Str) : List Str := goFieldsAux cs []

/-- Split at every occurrence of a single separator character
(`strings.Split` with a one-character separator).  The result is always
non-empty; separators are not included in the parts. -/
def splitCh (sep : Char) : Str → List Str
  | [] => [[]]
  | c :: rest =>
    if c = sep then [] :: splitCh sep rest
    else
      match splitCh sep rest with
      | h :: t => (c :: h) :: t
      | [] => [[c]]

/-- `strings.Split(s, "::")`: split at each leftmost non-overlapping
occurrence of two consecutive colons. -/
def splitDC : Str → List Str
  | ':' :: ':' :: rest => [] :: splitDC rest
  | c :: rest =>
    match splitDC rest with
    | h :: t => (c :: h) :: t
    | [] => [[c]]
  | [] => [[]]

/-- `strings.Contains(s, "::")`. -/
def hasDC : Str → Bool
  | ':' :: ':' :: _ => true
  | _ :: rest => hasDC rest
  | [] => false

/-- Drop one trailing `'\r'`, as `bufio.ScanLines`' `dropCR` does. -/
def dropCR (cs : Str) : Str :=
  match cs.getLast? with
  | some '\r' => cs.dropLast
  | _ => cs

/-- Token list produced by `bufio.Scanner` with the default `ScanLines`
split function: tokens are the text between `'\n'`s, a trailing `'\r'`
is stripped from each, a final newline does not produce an empty last
token, and empty input produces no tokens. -/
def goScanLines (cs : Str) : List Str :=
  if cs.isEmpty then []
  else
    let parts := splitCh '\n' cs
    let parts := if cs.getLast? = some '\n' then parts.dropLast else parts
    parts.map dropCR

/-- Decimal digits of a natural number (fuel-based so it reduces in the
kernel). -/
def natToCharsAux : Nat → Nat → Str → Str
  | 0, _, acc => acc
  | fuel + 1, n, acc =>
    let d := Char.ofNat (48 + n % 10)
    if n < 10 then d :: acc else natToCharsAux fuel (n / 10) (d :: acc)

/-- Decimal rendering of a natural number, as `fmt` prints it. -/
def natToChars (n : Nat) : Str := natToCharsAux (n + 1) n []

/-- Decimal rendering of an `Int`, as `fmt.Sprintf("%d", i)` prints it. -/
def intToChars (i : Int) : Str :=
  if i < 0 then '-' :: natToChars (-i).toNat else natToChars i.toNat

/-- `fmt`'s `%v` rendering of an `[]int`: elements space-separated inside
brackets. -/
def intListToChars (l : List Int) : Str :=
  '[' :: (List.intercalate [' '] (l.map intToChars)) ++ [']']

/-! ## The entry regex

`entryRegex = ^(\s*#\s*)?(\S+)\s+(.+?)(?:\s*#\s*(.*))?$`, matched with
Go `regexp`'s leftmost-first (Perl preference) semantics.  The matcher
below is a direct operational reading of that search order.  Where the
regex's backtracking is forced (a shorter greedy `\s*` stop is followed
by a space character and hence can never be followed by the literal
`'#'` or by `\S`; a shorter `(\S+)` stop is followed by a non-space and
hence fails the subsequent `\s+`), the deterministic residue is used;
where backtracking is real (the optional leading group, the greedy
`\s+` yielding characters to the lazy `(.+?)`, the lazy `(.+?)` growing
until the tail matches) alternatives are tried in preference order. -/

/-- Match `(?:\s*#\s*(.*))?$` at `cs`.  Returns the capture of group 4
(`[]` also when the optional group is skipped), or `none` when the
position does not match.  The first `\s*` is greedy: stopping short
leaves a space character where `'#'` is required, so only the maximal
stop is viable; the second `\s*` likewise, and backing it off only
prepends characters to the remainder, so `(.*)$` (which cannot cross a
`'\n'`) succeeds iff the maximal remainder is newline-free. -/
def matchTail (cs : Str) : Option Str :=
  match cs.drop (runLen regexSpace cs) with
  | '#' :: r2 =>
    let r3 := r2.drop (runLen regexSpace r2)
    if r3.contains '\n' then none else some r3
  | _ => if cs.isEmpty then some [] else none

/-- The lazy `(.+?)` followed by the tail: grow the captured prefix one
character at a time (never across `'\n'`, which `.` does not match) and
stop at the first length at which the tail matches.  `acc` is the
prefix captured so far. -/
def midSearch (acc : Str) : Str → Option (Str × Str)
  | [] => none
  | c :: rest =>
    if c = '\n' then none
    else
      match matchTail rest with
      | some g4 => some (acc ++ [c], g4)
      | none => midSearch (acc ++ [c]) rest

/-- Match `(.+?)(?:\s*#\s*(.*))?$` at `cs`, returning the captures of
groups 3 and 4. -/
def matchMid (cs : Str) : Option (Str × Str) := midSearch [] cs

/-- Backtracking alternatives of a greedy `\s+` whose maximal run has
length `m`: consume `m, m-1, …, 1` characters, in that order. -/
def spaceAlts (m : Nat) : List Nat := (List.range m).map (fun i => m - i)

/-- Match `(\S+)\s+(.+?)(?:\s*#\s*(.*))?$` at `r1`, returning the
captures of groups 2–4.  `(\S+)` is forced to its maximal run (a
shorter stop is followed by a non-space, failing `\s+`); the `\s+` may
yield trailing characters of its run to the lazy group. -/
def matchBody (r1 : Str) : Option (Str × Str × Str) :=
  if runLen (fun c => !regexSpace c) r1 = 0 then none
  else
    ((spaceAlts (runLen regexSpace
        (r1.drop (runLen (fun c => !regexSpace c) r1)))).findSome? fun k =>
      matchMid ((r1.drop (runLen (fun c => !regexSpace c) r1)).drop k)).map
      fun p => (r1.take (runLen (fun c => !regexSpace c) r1), p.1, p.2)

/-- `entryRegex.FindStringSubmatch`: `some (g1, g2, g3, g4)` with the
four captures (`[]` for a non-participating group), `none` when the
line does not match.  The optional prefix group `(\s*#\s*)?` prefers to
match; its two greedy `\s*`s are forced to maximal runs (a shorter stop
of the first leaves a space where `'#'` must be, a shorter stop of the
second leaves a space where `\S` must be).  If the rest of the pattern
fails after the group, the group is skipped. -/
def entryMatch (cs : Str) : Option (Str × Str × Str × Str) :=
  Option.orElse
    (match cs.drop (runLen regexSpace cs) with
     | '#' :: r2 =>
       (matchBody (r2.drop (runLen regexSpace r2))).map fun g =>
         (cs.take (runLen regexSpace cs) ++ '#' :: r2.take (runLen regexSpace r2),
          g.1, g.2.1, g.2.2)
     | _ => none)
    (fun _ => (matchBody cs).map fun g => ([], g.1, g.2.1, g.2.2))

/-! ## Validators from `internal/hosts/parser.go` -/

/-- The running decimal value accumulated by the digit loop of
`Parser.isValidIP` (`num = num*10 + int(char-'0')`). -/
def digitsVal (p : Str) : Nat := p.foldl (fun a c => a * 10 + (c.toNat - 48)) 0

/-- The per-part check of `Parser.isValidIP`: length in 1..3, decimal
digits only, value at most 255, and no leading zero unless the part is
exactly `"0"`. -/
def ipPartOK (p : Str) : Bool :=
  decide (p.length ≠ 0) && decide (p.length ≤ 3) && p.all isDigitCh &&
  decide (digitsVal p ≤ 255) &&
  !(decide (1 < p.length) && decide (p.head? = some '0'))

/-- `Parser.isValidIPv6Part`: 1–4 hexadecimal characters. -/
def isValidIPv6Part (p : Str) : Bool :=
  decide (p.length ≠ 0) && decide (p.length ≤ 4) && p.all isHexCh

/-- `Parser.isValidIPv6`. -/
def isValidIPv6 (ip : Str) : Bool :=
  if hasDC ip then
    match splitDC ip with
    | [p0, p1] =>
      let leftParts := if p0.isEmpty then [] else splitCh ':' p0
      let rightParts := if p1.isEmpty then [] else splitCh ':' p1
      decide (leftParts.length + rightParts.length < 8) &&
      (leftParts ++ rightParts).all isValidIPv6Part
    | _ => false
  else
    let parts := splitCh ':' ip
    decide (parts.length = 8) && parts.all isValidIPv6Part

/-- `Parser.isValidIP`: dotted-quad IPv4 when the string splits into
exactly four dot-separated parts, otherwise IPv6. -/
def isValidIP (ip : Str) : Bool :=
  if (splitCh '.' ip).length ≠ 4 then isValidIPv6 ip
  else (splitCh '.' ip).all ipPartOK

/-- One label of `hostnameRegex`
(`[a-zA-Z0-9]([a-zA-Z0-9\-]{0,61}[a-zA-Z0-9])?`): 1–63 characters,
first and last alphanumeric, interior alphanumeric or hyphen. -/
def labelMidOK : Str → Bool
  | [] => false
  | [c] => isAlnumCh c
  | c :: rest => (isAlnumCh c || c = '-') && labelMidOK rest

/-- A full label of `hostnameRegex`. -/
def labelOK : Str → Bool
  | [] => false
  | [c] => isAlnumCh c
  | c :: rest => isAlnumCh c && decide (rest.length ≤ 62) && labelMidOK rest

/-- The language of `hostnameRegex`
(`^label(\.label)*$`): since labels cannot contain dots, a string
matches iff every dot-separated part is a valid label. -/
def hostRegexMatch (n : Str) : Bool := (splitCh '.' n).all labelOK

/-- Go `len` of a string: its UTF-8 byte size. -/
def byteLen (cs : Str) : Nat := cs.foldl (fun a c => a + c.utf8Size) 0

/-- `Parser.isValidHostname`: non-empty, at most 253 bytes, and either
the literal `localhost` or a match of `hostnameRegex`. -/
def isValidHostname (n : Str) : Bool :=
  if decide (byteLen n = 0) || decide (253 < byteLen n) then false
  else if n = "localhost".data then true
  else hostRegexMatch n

/-! ## Validator from `pkg/validation.go` -/

/-- One octet of `ipv4Regex`:
`25[0-5]|2[0-4][0-9]|[01]?[0-9][0-9]?`.  The language: any one- or
two-digit group, or a three-digit group that is `0xx`, `1xx`, `2[0-4]x`
or `25[0-5]`.  Leading zeros are accepted. -/
def rxOctet : Str → Bool
  | [c] => isDigitCh c
  | [c, d] => isDigitCh c && isDigitCh d
  | [c, d, e] =>
    isDigitCh c && isDigitCh d && isDigitCh e &&
    (c = '0' || c = '1' || (c = '2' && (d.toNat ≤ 52 || (d = '5' && e.toNat ≤ 53))))
  | _ => false

/-- `pkg.IsValidIPv4` (via `ValidateIPv4`): non-empty and matched by
`ipv4Regex`, i.e. exactly four dot-separated `rxOctet` groups (octets
contain no dot, so the anchored regex decomposes along the dots). -/
def pkgIsValidIPv4 (ip : Str) : Bool :=
  !ip.isEmpty &&
    (match splitCh '.' ip with
     | [a, b, c, d] => rxOctet a && rxOctet b && rxOctet c && rxOctet d
     | _ => false)

/-! ## Data model (`internal/hosts/model.go`) -/

/-- `hosts.Entry`. -/
structure PEntry where
  id : Int
  ip : Str
  names : List Str
  comment : Str
  disabled : Bool
  raw : Str
deriving DecidableEq, Repr

/-- `hosts.HostsFile`. -/
structure PHostsFile where
  entries : List PEntry
  path : Str
deriving DecidableEq, Repr

/-- `Entry.IsValid`. -/
def PEntry.isValidEntry (e : PEntry) : Bool :=
  !e.ip.isEmpty && decide (0 < e.names.length)

/-- The trailing `<tab># comment` of `Entry.String`, empty when the
comment is empty. -/
def commentTail (e : PEntry) : Str :=
  if e.comment.isEmpty then [] else '\t' :: '#' :: ' ' :: e.comment

/-- `Entry.String`: `[# ]IP<tab>name…[<tab># comment]`. -/
def entryString (e : PEntry) : Str :=
  if e.disabled then
    '#' :: ' ' :: (e.ip ++ e.names.foldl (fun acc n => acc ++ '\t' :: n) [] ++
      commentTail e)
  else
    e.ip ++ e.names.foldl (fun acc n => acc ++ '\t' :: n) [] ++ commentTail e

/-- `HostsFile.AddEntry`: id 1 on an empty file, otherwise the running
maximum of the existing ids (folded from 0) plus one; appends at the
end. -/
def addEntry (h : PHostsFile) (e : PEntry) : PHostsFile :=
  let newId : Int :=
    if h.entries.isEmpty then 1
    else (h.entries.foldl (fun m x => if m < x.id then x.id else m) 0) + 1
  { h with entries := h.entries ++ [{ e with id := newId }] }

/-! ## Parser (`internal/hosts/parser.go`) -/

/-- `hosts.ParseError`. -/
structure PError where
  line : Int
  content : Str
  reason : Str
deriving DecidableEq, Repr

/-- `Parser.isDisabledEntry`: the entry regex matches and capture 1 is
non-blank. -/
def isDisabledEntry (line : Str) : Bool :=
  match entryMatch line with
  | some g => !(goTrimSpace g.1).isEmpty
  | none => false

/-- `Parser.parseLine`.  `.ok none` corresponds to Go's `(nil, nil)`
return for blank lines. -/
def parseLine (line : Str) (lineNum entryID : Int) :
    Except PError (Option PEntry) :=
  if (goTrimSpace line).isEmpty then .ok none
  else
    match entryMatch line with
    | none => .error ⟨lineNum, line, "invalid line format".data⟩
    | some (m1, m2, m3, m4) =>
      if !isValidIP (goTrimSpace m2) then
        .error ⟨lineNum, line, "invalid IP address: ".data ++ goTrimSpace m2⟩
      else
        match (goFields (goTrimSpace m3)).find? (fun h => !isValidHostname h) with
        | some h => .error ⟨lineNum, line, "invalid hostname: ".data ++ h⟩
        | none =>
          .ok (some ⟨entryID, goTrimSpace m2, goFields (goTrimSpace m3), goTrimSpace m4,
            !(goTrimSpace m1).isEmpty, line⟩)

/-- The scan loop of `Parser.Parse` over the scanner's tokens:
blank and pure-comment lines are skipped; a malformed line aborts in
strict mode and is skipped in lenient mode; a produced entry is
appended and the id counter incremented. -/
def parseLines (strict : Bool) : List Str → Int → Int → Except PError (List PEntry)
  | [], _, _ => .ok []
  | l :: rest, lineNum, entryID =>
    let lineNum := lineNum + 1
    let trimmed := goTrimSpace l
    if trimmed.isEmpty || (trimmed.head? = some '#' && !isDisabledEntry l) then
      parseLines strict rest lineNum entryID
    else
      match parseLine l lineNum entryID with
      | .error e => if strict then .error e else parseLines strict rest lineNum entryID
      | .ok none => parseLines strict rest lineNum entryID
      | .ok (some e) => (parseLines strict rest lineNum (entryID + 1)).map (e :: ·)

/-- `Parser.Parse` on an in-memory document (the reader never faults in
the embedding, so `scanner.Err()` is always nil). -/
def goParse (strict : Bool) (text : Str) : Except PError PHostsFile :=
  (parseLines strict (goScanLines text) 0 1).map (fun es => ⟨es, []⟩)

/-- `Parser.Serialize`: entry lines joined by `'\n'` with one trailing
`'\n'` (`strings.Join(lines, "\n") + "\n"`). -/
def serialize (hf : PHostsFile) : Str :=
  List.intercalate ['\n'] (hf.entries.map entryString) ++ ['\n']

/-! ## Store (`internal/hosts/store.go`)

The filesystem is an association list from paths to file contents.
The points at which `Save`'s I/O primitives can fail are the fields of
`IOEnv`; the trace of attempted filesystem steps is returned so that
"no temporary-file write and no rename was attempted" is a statement
about the embedding. -/

/-- A filesystem: the first binding of a path wins. -/
abbrev FS := List (Str × Str)

def fsLookup (fs : FS) (p : Str) : Option Str :=
  match fs with
  | [] => none
  | (q, c) :: rest => if q = p then some c else fsLookup rest p

def fsRemove (fs : FS) (p : Str) : FS :=
  fs.filter (fun b => !decide (b.1 = p))

def fsInsert (fs : FS) (p : Str) (c : Str) : FS :=
  (p, c) :: fsRemove fs p

/-- Which of `Save`'s fallible I/O primitives fail, and the effective
uid of the process. -/
structure IOEnv where
  euid : Int
  backupCreateFails : Bool
  backupCopyFails : Bool
  tempCreateFails : Bool
  tempWriteFails : Bool
  renameFails : Bool
deriving DecidableEq, Repr

/-- Filesystem steps attempted by `Store.Save`, in order. -/
inductive SOp where
  | openSource
  | createBackupFile
  | copyBackup
  | writeTemp
  | renameTemp
  | removeTemp
deriving DecidableEq, Repr

/-- `Store.requiresRoot`: only `/etc/hosts` needs euid 0. -/
def requiresRootFails (path : Str) (env : IOEnv) : Bool :=
  decide (path = "/etc/hosts".data) && decide (env.euid ≠ 0)

/-- `Store.Save`.  `bts` is the timestamp used in the backup file name.
Returns the error (if any), the resulting filesystem, and the trace of
attempted steps.  `createBackup` opens the canonical file, creates the
backup file, and copies; a failed copy leaves a partial backup file but
never touches the canonical path.  `writeTemp` creates and writes
`path + ".tmp"`; the final step renames it over the canonical path,
deleting it instead if the rename fails. -/
def goSave (env : IOEnv) (bts : Str) (path : Str) (hf : PHostsFile) (fs : FS) :
    Option Str × FS × List SOp :=
  if requiresRootFails path env then
    (some "modifying /etc/hosts requires root privileges (run with sudo)".data, fs, [])
  else
    let content := serialize hf
    let backupPath := path ++ ".hostsctl.".data ++ bts ++ ".bak".data
    let tempPath := path ++ ".tmp".data
    match fsLookup fs path with
    | none => (some "failed to create backup: open".data, fs, [.openSource])
    | some cur =>
      if env.backupCreateFails then
        (some "failed to create backup: create".data, fs, [.openSource, .createBackupFile])
      else if env.backupCopyFails then
        (some "failed to create backup: copy".data, fsInsert fs backupPath [],
          [.openSource, .createBackupFile, .copyBackup])
      else
        let fs1 := fsInsert fs backupPath cur
        let pre := [SOp.openSource, .createBackupFile, .copyBackup]
        if env.tempCreateFails then
          (some "failed to write temporary file".data, fs1, pre ++ [.writeTemp])
        else if env.tempWriteFails then
          (some "failed to write temporary file".data, fsInsert fs1 tempPath [],
            pre ++ [.writeTemp])
        else
          let fs2 := fsInsert fs1 tempPath content
          if env.renameFails then
            (some "failed to atomically replace hosts file".data, fsRemove fs2 tempPath,
              pre ++ [.writeTemp, .renameTemp, .removeTemp])
          else
            (none, fsInsert (fsRemove fs2 tempPath) path content,
              pre ++ [.writeTemp, .renameTemp])

/-- `Store.Load` on the modelled filesystem. -/
def goLoad (strict : Bool) (fs : FS) (path : Str) : Except Str PHostsFile :=
  match fsLookup fs path with
  | none => .error "failed to open hosts file".data
  | some content =>
    match goParse strict content with
    | .error _ => .error "failed to parse hosts file".data
    | .ok hf => .ok { hf with path := path }

/-! ### `Store.Verify`

The first pass accumulates per-entry issues and the `seenNames` map; the
map is modelled as an association list in first-insertion order (Go
iterates the map in unspecified order; the embedding fixes insertion
order, which does not affect which issues appear or how often). -/

/-- `seenNames[name] = append(seenNames[name], id)`. -/
def seenInsert (m : List (Str × List Int)) (name : Str) (id : Int) :
    List (Str × List Int) :=
  match m with
  | [] => [(name, [id])]
  | (n, ids) :: rest =>
    if n = name then (n, ids ++ [id]) :: rest else (n, ids) :: seenInsert rest name id

/-- Insert every name of one entry, in order. -/
def seenInsertEntry (m : List (Str × List Int)) (e : PEntry) : List (Str × List Int) :=
  e.names.foldl (fun m n => seenInsert m n e.id) m

/-- One entry's step of `Store.Verify`'s first pass: an invalid entry
contributes one issue and is not inserted into `seenNames` (Go's
`continue`); otherwise the IP issue (if any), then the per-name
hostname issues, are appended and every name is inserted. -/
def verifyStep (acc : List Str × List (Str × List Int)) (e : PEntry) :
    List Str × List (Str × List Int) :=
  if !e.isValidEntry then
    (acc.1 ++ ["entry ".data ++ intToChars e.id ++ ": invalid entry (missing IP or names)".data],
     acc.2)
  else
    (acc.1 ++
      (if !isValidIP e.ip then
        [("entry ".data ++ intToChars e.id ++ ": invalid IP address: ".data ++ e.ip)]
      else []) ++
      (e.names.filter (fun n => !isValidHostname n)).map
        (fun n => "entry ".data ++ intToChars e.id ++ ": invalid hostname: ".data ++ n),
     seenInsertEntry acc.2 e)

/-- First pass of `Store.Verify` over the entries, in order: per-entry
issues and the `seenNames` map. -/
def verifyPass (es : List PEntry) : List Str × List (Str × List Int) :=
  es.foldl verifyStep ([], [])

/-- The `seenNames` component of one `verifyStep`. -/
def seenStep (m : List (Str × List Int)) (e : PEntry) : List (Str × List Int) :=
  if !e.isValidEntry then m else seenInsertEntry m e

/-- The `seenNames` map accumulated over the entries. -/
def seenFold (es : List PEntry) : List (Str × List Int) :=
  es.foldl seenStep []

/-- Lookup in the modelled `seenNames` map (`[]` when absent, which is
also Go's zero value for a missing key). -/
def seenGet (m : List (Str × List Int)) (name : Str) : List Int :=
  match m with
  | [] => []
  | (n, ids) :: rest => if n = name then ids else seenGet rest name

/-- The keys of the modelled map, in insertion order. -/
def seenKeys (m : List (Str × List Int)) : List Str := m.map (·.1)

/-- The ids that `Verify` associates with `name`: one occurrence of
`e.id` per occurrence of `name` in the name list of each valid entry
`e`, in entry order. -/
def ownersM (name : Str) (es : List PEntry) : List Int :=
  es.flatMap (fun e =>
    if !e.isValidEntry then []
    else (e.names.filter (fun n => decide (n = name))).map (fun _ => e.id))

/-- The duplicate-issue string
`duplicate hostname '<name>' found in entries: <ids>`. -/
def renderDup (name : Str) (ids : List Int) : Str :=
  "duplicate hostname '".data ++ name ++ "' found in entries: ".data ++ intListToChars ids

/-- The duplicated names with their owner ids. -/
def dupPairs (es : List PEntry) : List (Str × List Int) :=
  (verifyPass es).2.filter (fun p => decide (1 < p.2.length))

/-- `Store.Verify` given the entries of a successfully loaded file. -/
def verifyIssues (es : List PEntry) : List Str :=
  (verifyPass es).1 ++ (dupPairs es).map (fun p => renderDup p.1 p.2)

/-- `Store.Verify` from a document text. -/
def goVerify (strict : Bool) (text : Str) : Except PError (List Str) :=
  (goParse strict text).map (fun hf => verifyIssues hf.entries)

/-- `Store.Verify` at the filesystem level: it loads and analyses but
performs no write, so the filesystem is returned unchanged. -/
def goVerifyFS (strict : Bool) (fs : FS) (path : Str) :
    (Except Str (List Str)) × FS :=
  (match goLoad strict fs path with
   | .error e => .error e
   | .ok hf => .ok (verifyIssues hf.entries), fs)

/-! ## Lock (`internal/lock/flock.go`)

The lock-file handle and the OS `flock` call are abstracted: each
acquisition attempt consumes one `FlockOutcome`, and `lockWithTimeout`'s
poll loop is driven by a finite list of outcomes (the list running out
models the deadline elapsing). -/

/-- State of a `FileLock` instance. -/
structure FileLock where
  path : Str
  acquired : Bool
deriving DecidableEq, Repr

/-- Result of one `syscall.Flock(LOCK_EX|LOCK_NB)` attempt. -/
inductive FlockOutcome where
  | success
  | contended
  | osError
deriving DecidableEq, Repr

/-- `FileLock.TryLock`.  The boolean in the result records whether an
acquisition was attempted (the lock file opened / `flock` called). -/
def tryLock (fl : FileLock) (openFails : Bool) (out : FlockOutcome) :
    Except Str Unit × FileLock × Bool :=
  if fl.acquired then (.error "lock already acquired".data, fl, false)
  else if openFails then (.error "failed to create lock file".data, fl, true)
  else
    match out with
    | .success => (.ok (), { fl with acquired := true }, true)
    | .contended => (.error "lock is already held by another process".data, fl, true)
    | .osError => (.error "failed to acquire lock".data, fl, true)

/-- The poll loop of `FileLock.LockWithTimeout`. -/
def lockLoop (fl : FileLock) : List FlockOutcome → Except Str Unit × FileLock
  | [] => (.error "timeout waiting for lock".data, fl)
  | out :: rest =>
    match out with
    | .success => (.ok (), { fl with acquired := true })
    | .osError => (.error "failed to acquire lock".data, fl)
    | .contended => lockLoop fl rest

/-- `FileLock.LockWithTimeout`: re-entrant call and open failure are
rejected before any attempt; otherwise the poll loop runs. -/
def lockWithTimeout (fl : FileLock) (openFails : Bool) (outs : List FlockOutcome) :
    Except Str Unit × FileLock × Bool :=
  if fl.acquired then (.error "lock already acquired".data, fl, false)
  else if openFails then (.error "failed to create lock file".data, fl, true)
  else
    let (r, fl') := lockLoop fl outs
    (r, fl', true)

/-- `FileLock.Unlock`. -/
def unlock (fl : FileLock) : Except Str Unit × FileLock :=
  if !fl.acquired then (.error "lock not acquired".data, fl)
  else (.ok (), { fl with acquired := false })

/-! ## Spec-side definitions

These formalise wording of the specification, for comparison with the
definitions translated from the source. -/

/-- The specification's IPv4 acceptance condition: four dot-separated
decimal groups, each with numeric value in [0,255], no group written
with a leading zero unless it is exactly `"0"`. -/
def specIPv4 (s : Str) : Prop :=
  (splitCh '.' s).length = 4 ∧
    ∀ p ∈ splitCh '.' s,
      p ≠ [] ∧ p.all isDigitCh = true ∧ digitsVal p ≤ 255 ∧
        (1 < p.length → p.head? ≠ some '0')

instance (s : Str) : Decidable (specIPv4 s) := by
  unfold specIPv4; infer_instance

/-- The ids `k, k+1, …, k+n-1`. -/
def idsFrom (k : Int) : Nat → List Int
  | 0 => []
  | n + 1 => k :: idsFrom (k + 1) n

/-- A character that can occur inside a valid IP or hostname token:
not regexp whitespace, not Go whitespace, and not `'#'`. -/
def PlainCh (c : Char) : Prop :=
  regexSpace c = false ∧ goIsSpace c = false ∧ c ≠ '#'

instance (c : Char) : Decidable (PlainCh c) := by
  unfold PlainCh; infer_instance

/-- A non-empty token of plain characters. -/
def PlainWord (w : Str) : Prop := w ≠ [] ∧ ∀ c ∈ w, PlainCh c

/-- The entries for which the generated text is an exact fixed point of
parsing: syntactically valid ip and hostnames, and a comment that is
newline-free and unchanged by `TrimSpace` (serialization writes the
comment verbatim and parsing trims it). -/
def GoodEntry (e : PEntry) : Prop :=
  isValidIP e.ip = true ∧ e.names ≠ [] ∧
  (∀ n ∈ e.names, isValidHostname n = true) ∧
  goTrimSpace e.comment = e.comment ∧ '\n' ∉ e.comment

instance (e : PEntry) : Decidable (GoodEntry e) := by
  unfold GoodEntry; infer_instance

/-- Reassign ids sequentially from `k` and record each entry's
regenerated line as its raw text, as parsing the serialized file
does. -/
def renumber (k : Int) : List PEntry → List PEntry
  | [] => []
  | e :: rest =>
    { e with id := k, raw := entryString e } :: renumber (k + 1) rest

/-! ## Sanity checks against the repository's own test vectors -/

example : entryMatch "127.0.0.1\tlocalhost".data =
    some ([], "127.0.0.1".data, "localhost".data, []) := by decide

example : entryMatch "# 192.168.1.2\tdisabled.local\t# Disabled entry".data =
    some ("# ".data, "192.168.1.2".data, "disabled.local".data, "Disabled entry".data) := by
  decide

example : entryMatch "  \t127.0.0.1\tlocalhost".data = none := by decide

example : isValidIP "256.0.0.1".data = false ∧ isValidIP "0.0.0.0".data = true ∧
    isValidIP "::1".data = true ∧ isValidIP "gggg::1".data = false := by decide

example : isValidHostname "test-server.local".data = true ∧
    isValidHostname ".invalid".data = false ∧
    isValidHostname "invalid..com".data = false ∧
    isValidHostname "-invalid.com".data = false := by decide

/-! ## Filesystem lemmas -/

theorem fsLookup_fsRemove_ne (fs : FS) (p q : Str) (h : p ≠ q) :
    fsLookup (fsRemove fs p) q = fsLookup fs q := by
  induction fs with
  | nil => rfl
  | cons b rest ih =>
    obtain ⟨r, c⟩ := b
    by_cases hr : r = p
    · have h1 : fsRemove ((r, c) :: rest) p = fsRemove rest p := by
        simp [fsRemove, List.filter_cons, hr]
      rw [h1, ih]
      simp only [fsLookup]
      rw [if_neg (fun hq => h (hr.symm.trans hq))]
    · have h1 : fsRemove ((r, c) :: rest) p = (r, c) :: fsRemove rest p := by
        simp [fsRemove, List.filter_cons, hr]
      rw [h1]
      simp only [fsLookup]
      by_cases hq : r = q
      · simp [hq]
      · simp only [if_neg hq]
        exact ih

theorem fsLookup_fsInsert_ne (fs : FS) (p q : Str) (c : Str) (h : p ≠ q) :
    fsLookup (fsInsert fs p c) q = fsLookup fs q := by
  simp only [fsInsert, fsLookup, if_neg h]
  exact fsLookup_fsRemove_ne fs p q h

/-- A list is never equal to itself extended by a non-empty suffix. -/
theorem ne_append_right {α : Type} (l s : List α) (h : s ≠ []) : l ≠ l ++ s := by
  intro he
  have := congrArg List.length he
  simp only [List.length_append] at this
  have : s.length = 0 := by omega
  exact h (List.length_eq_zero.mp this)

/-! ## Claim C1 -/

/-- C1: if the privilege check passes and the backup step of
`Store.Save` fails (source unopenable, backup file uncreatable, or copy
failure), `Save` returns an error, the canonical file's bytes are
unchanged, and no temporary-file write and no rename is attempted. -/
theorem save_backup_failure_leaves_file_untouched
    (env : IOEnv) (bts path : Str) (hf : PHostsFile) (fs : FS)
    (hroot : requiresRootFails path env = false)
    (hfail : fsLookup fs path = none ∨ env.backupCreateFails = true ∨
      env.backupCopyFails = true) :
    (goSave env bts path hf fs).1.isSome = true ∧
    fsLookup (goSave env bts path hf fs).2.1 path = fsLookup fs path ∧
    SOp.writeTemp ∉ (goSave env bts path hf fs).2.2 ∧
    SOp.renameTemp ∉ (goSave env bts path hf fs).2.2 := by
  have hbp : path ≠ path ++ ".hostsctl.".data ++ bts ++ ".bak".data := by
    rw [List.append_assoc, List.append_assoc]
    exact ne_append_right path _ (by simp)
  unfold goSave
  rw [hroot]
  simp only [Bool.false_eq_true, if_false]
  rcases hopen : fsLookup fs path with _ | cur
  · simp [hopen]
  · rcases hfail with hfail | hfail | hfail
    · rw [hopen] at hfail; cases hfail
    · simp [hfail, hopen]
    · rcases hcr : env.backupCreateFails with _ | _
      · simp only [hcr, Bool.false_eq_true, if_false, hfail, if_true]
        refine ⟨rfl, ?_, by simp, by simp⟩
        rw [fsLookup_fsInsert_ne _ _ _ _ (fun h => hbp h.symm), hopen]
      · simp [hcr, hopen]

/-- Witness for C1: a concrete store whose backup-file creation fails;
the canonical file keeps its old bytes and no temp/rename step appears
in the trace. -/
theorem save_backup_failure_leaves_file_untouched_witness :
    requiresRootFails "/tmp/hosts".data
        ⟨1000, true, false, false, false, false⟩ = false ∧
    ((goSave ⟨1000, true, false, false, false, false⟩ "20240101-000000".data
        "/tmp/hosts".data ⟨[], []⟩
        [("/tmp/hosts".data, "127.0.0.1\tlocalhost\n".data)]).1.isSome = true ∧
      fsLookup (goSave ⟨1000, true, false, false, false, false⟩ "20240101-000000".data
        "/tmp/hosts".data ⟨[], []⟩
        [("/tmp/hosts".data, "127.0.0.1\tlocalhost\n".data)]).2.1 "/tmp/hosts".data =
        fsLookup [("/tmp/hosts".data, "127.0.0.1\tlocalhost\n".data)] "/tmp/hosts".data ∧
      SOp.writeTemp ∉ (goSave ⟨1000, true, false, false, false, false⟩
        "20240101-000000".data "/tmp/hosts".data ⟨[], []⟩
        [("/tmp/hosts".data, "127.0.0.1\tlocalhost\n".data)]).2.2 ∧
      SOp.renameTemp ∉ (goSave ⟨1000, true, false, false, false, false⟩
        "20240101-000000".data "/tmp/hosts".data ⟨[], []⟩
        [("/tmp/hosts".data, "127.0.0.1\tlocalhost\n".data)]).2.2) :=
  ⟨by decide,
   save_backup_failure_leaves_file_untouched _ _ _ _ _ (by decide) (Or.inr (Or.inl rfl))⟩

/-! ## Claim C10 -/

/-- C10: when no file exists at the store's path, `Save` always fails
(either at the privilege gate or because the backup step cannot open
the source) and never creates a file at the canonical path. -/
theorem save_requires_existing_file
    (env : IOEnv) (bts path : Str) (hf : PHostsFile) (fs : FS)
    (hnone : fsLookup fs path = none) :
    (goSave env bts path hf fs).1.isSome = true ∧
    fsLookup (goSave env bts path hf fs).2.1 path = none := by
  unfold goSave
  rcases hroot : requiresRootFails path env with _ | _
  · simp [hnone]
  · simp [hnone]

/-- Witness for C10: saving through a store whose path has no file
fails and creates nothing there. -/
theorem save_requires_existing_file_witness :
    fsLookup ([] : FS) "/tmp/hosts".data = none ∧
    ((goSave ⟨0, false, false, false, false, false⟩ "20240101-000000".data
        "/tmp/hosts".data ⟨[], []⟩ []).1.isSome = true ∧
      fsLookup (goSave ⟨0, false, false, false, false, false⟩ "20240101-000000".data
        "/tmp/hosts".data ⟨[], []⟩ []).2.1 "/tmp/hosts".data = none) :=
  ⟨rfl, save_requires_existing_file _ _ _ _ _ rfl⟩

/-! ## Claim C9 -/

/-- C9: `unlock` on a released instance is an error and leaves the
state unchanged; `tryLock` and `lockWithTimeout` on an instance that
already holds the lock are errors, attempt no acquisition, and leave
the state unchanged. -/
theorem lock_reentrancy_guards
    (fl : FileLock) (openFails : Bool) (out : FlockOutcome)
    (outs : List FlockOutcome) :
    (fl.acquired = false →
      unlock fl = (.error "lock not acquired".data, fl)) ∧
    (fl.acquired = true →
      tryLock fl openFails out = (.error "lock already acquired".data, fl, false) ∧
      lockWithTimeout fl openFails outs =
        (.error "lock already acquired".data, fl, false)) := by
  constructor
  · intro h
    simp [unlock, h]
  · intro h
    constructor
    · simp [tryLock, h]
    · simp [lockWithTimeout, h]

/-- Witness for C9 at concrete released and held instances. -/
theorem lock_reentrancy_guards_witness :
    unlock ⟨"/etc/hosts".data, false⟩ =
      (.error "lock not acquired".data, ⟨"/etc/hosts".data, false⟩) ∧
    tryLock ⟨"/etc/hosts".data, true⟩ false .success =
      (.error "lock already acquired".data, ⟨"/etc/hosts".data, true⟩, false) ∧
    lockWithTimeout ⟨"/etc/hosts".data, true⟩ false [.contended, .success] =
      (.error "lock already acquired".data, ⟨"/etc/hosts".data, true⟩, false) :=
  ⟨(lock_reentrancy_guards ⟨"/etc/hosts".data, false⟩ false .success []).1 rfl,
   ((lock_reentrancy_guards ⟨"/etc/hosts".data, true⟩ false .success
      [.contended, .success]).2 rfl).1,
   ((lock_reentrancy_guards ⟨"/etc/hosts".data, true⟩ false .success
      [.contended, .success]).2 rfl).2⟩

/-! ## Claim C8 -/

theorem foldl_runningMax_eq (es : List PEntry) (a : Int) :
    es.foldl (fun m x => if m < x.id then x.id else m) a =
      (es.map (·.id)).foldl max a := by
  induction es generalizing a with
  | nil => rfl
  | cons e rest ih =>
    simp only [List.foldl_cons, List.map_cons]
    rw [ih]
    congr 1
    rcases lt_or_ge a e.id with h | h
    · rw [if_pos h, max_eq_right h.le]
    · rw [if_neg (not_lt.mpr h), max_eq_left h]

theorem le_foldl_max (l : List Int) (a : Int) :
    a ≤ l.foldl max a ∧ ∀ x ∈ l, x ≤ l.foldl max a := by
  induction l generalizing a with
  | nil => simp
  | cons b rest ih =>
    simp only [List.foldl_cons, List.mem_cons]
    refine ⟨le_trans (le_max_left a b) (ih (max a b)).1, ?_⟩
    rintro x (rfl | hx)
    · exact le_trans (le_max_right a x) (ih (max a x)).1
    · exact (ih (max a b)).2 x hx

theorem foldl_max_mem (l : List Int) (a : Int) :
    l.foldl max a = a ∨ l.foldl max a ∈ l := by
  induction l generalizing a with
  | nil => simp
  | cons b rest ih =>
    simp only [List.foldl_cons, List.mem_cons]
    rcases ih (max a b) with h | h
    · rcases max_cases a b with ⟨hm, _⟩ | ⟨hm, _⟩
      · exact Or.inl (h.trans hm)
      · exact Or.inr (Or.inl (h.trans hm))
    · exact Or.inr (Or.inr h)

/-- C8 (amended): `AddEntry` appends at the end preserving order; the
new id is 1 on an empty file; on a non-empty file whose ids are all
non-negative (as parser-assigned ids always are) it is
max(existing ids) + 1, hence fresh and in particular 6 on ids {1,5}. -/
theorem addEntry_assigns_max_plus_one (h : PHostsFile) (e : PEntry) :
    ∃ k : Int,
      (addEntry h e).entries = h.entries ++ [{ e with id := k }] ∧
      (h.entries = [] → k = 1) ∧
      (h.entries ≠ [] → (∀ x ∈ h.entries, 0 ≤ x.id) →
        (k - 1) ∈ h.entries.map (·.id) ∧ ∀ i ∈ h.entries.map (·.id), i < k) := by
  refine ⟨_, rfl, ?_, ?_⟩
  · intro he
    simp [addEntry, he]
  · intro hne hpos
    have hisE : h.entries.isEmpty = false := by
      simpa [List.isEmpty_iff] using hne
    simp only [addEntry, hisE, Bool.false_eq_true, if_false]
    rw [foldl_runningMax_eq]
    set M := (h.entries.map (·.id)).foldl max 0 with hM
    have hmem : M = 0 ∨ M ∈ h.entries.map (·.id) := foldl_max_mem _ 0
    have hub : ∀ x ∈ h.entries.map (·.id), x ≤ M := (le_foldl_max _ 0).2
    constructor
    · have : M + 1 - 1 = M := by omega
      rw [this]
      rcases hmem with h0 | hm
    -- if the running max is still 0, some id equals 0 (ids are ≥ 0 and the
    -- list is non-empty, so its ids are between 0 and M = 0)
      · obtain ⟨x, hx⟩ := List.exists_mem_of_ne_nil h.entries hne
        have hx0 : x.id = 0 := by
          have h1 := hpos x hx
          have h2 := hub x.id (List.mem_map_of_mem _ hx)
          omega
        rw [h0, ← hx0]
        exact List.mem_map_of_mem _ hx
      · exact hm
    · intro i hi
      have := hub i hi
      omega

/-- Witness for C8: id 1 on the empty file, id 6 on a file with ids
{1,5} — and 6 is max+1, not count+1. -/
theorem addEntry_assigns_max_plus_one_witness :
    (addEntry ⟨[], []⟩ ⟨0, "1.2.3.4".data, ["a".data], [], false, []⟩).entries.map
        (·.id) = [1] ∧
    (addEntry ⟨[⟨1, "1.2.3.4".data, ["a".data], [], false, []⟩,
        ⟨5, "5.6.7.8".data, ["b".data], [], false, []⟩], []⟩
      ⟨0, "9.9.9.9".data, ["c".data], [], false, []⟩).entries.map (·.id) = [1, 5, 6] ∧
    (∃ k : Int,
      (addEntry ⟨[], []⟩ ⟨0, "1.2.3.4".data, ["a".data], [], false, []⟩).entries =
        [] ++ [{ (⟨0, "1.2.3.4".data, ["a".data], [], false, []⟩ : PEntry) with id := k }] ∧
      (([] : List PEntry) = [] → k = 1) ∧
      (([] : List PEntry) ≠ [] → (∀ x ∈ ([] : List PEntry), 0 ≤ x.id) →
        (k - 1) ∈ ([] : List PEntry).map (·.id) ∧
          ∀ i ∈ ([] : List PEntry).map (·.id), i < k)) := by
  refine ⟨by decide, by decide, ?_⟩
  exact addEntry_assigns_max_plus_one ⟨[], []⟩ _

/-- Counterexample for C8 as stated: on a file whose only entry has id
−3 the claim prescribes new id max+1 = −2, but `AddEntry` (whose
running maximum starts at 0) assigns 1. -/
theorem addEntry_counterexample :
    (addEntry ⟨[⟨-3, "1.2.3.4".data, ["a".data], [], false, []⟩], []⟩
      ⟨0, "5.6.7.8".data, ["b".data], [], false, []⟩).entries.map (·.id) = [-3, 1] ∧
    (-3 : Int) + 1 = -2 ∧ (1 : Int) ≠ -2 := by decide

/-! ## Claim C6 -/

theorem idsFrom_succ (k : Int) (n : Nat) : idsFrom k (n + 1) = k :: idsFrom (k + 1) n :=
  rfl

/-- A successfully parsed line carries the id it was given. -/
theorem parseLine_id (l : Str) (n k : Int) (e : PEntry)
    (h : parseLine l n k = .ok (some e)) : e.id = k := by
  unfold parseLine at h
  split at h
  · simp at h
  · split at h
    · cases h
    · split at h
      · cases h
      · split at h
        · cases h
        · simp only [Except.ok.injEq, Option.some.injEq] at h
          rw [← h]

/-- Lenient parsing of any token list never fails, and the produced
entries carry consecutive ids starting at the initial counter value. -/
theorem parseLines_lenient_ok (lines : List Str) (ln k : Int) :
    ∃ es, parseLines false lines ln k = .ok es ∧
      es.map (·.id) = idsFrom k es.length := by
  induction lines generalizing ln k with
  | nil => exact ⟨[], rfl, by simp [idsFrom]⟩
  | cons l rest ih =>
    simp only [parseLines]
    split
    · exact ih (ln + 1) k
    · rcases hpl : parseLine l (ln + 1) k with pe | oe
      · simpa using ih (ln + 1) k
      · rcases oe with _ | e
        · exact ih (ln + 1) k
        · obtain ⟨es, h1, h2⟩ := ih (ln + 1) (k + 1)
          refine ⟨e :: es, ?_, ?_⟩
          · simp [h1, Except.map]
          · simp only [List.map_cons, List.length_cons, idsFrom_succ, h2,
              parseLine_id l (ln + 1) k e hpl]

/-- C6: lenient parsing never fails on any input text, and the entries
of the result carry ids exactly 1, 2, …, n in list order. -/
theorem lenient_parse_total_with_sequential_ids (text : Str) :
    ∃ es, goParse false text = .ok ⟨es, []⟩ ∧
      es.map (·.id) = idsFrom 1 es.length := by
  obtain ⟨es, h1, h2⟩ := parseLines_lenient_ok (goScanLines text) 0 1
  exact ⟨es, by simp [goParse, h1, Except.map], h2⟩

/-! ## Claim C4 -/

/-- C4 (amended): a line whose trimmed form starts with `'#'` and which
`isDisabledEntry` rejects (the entry regex fails, or matches without a
non-blank comment prefix) is ignored entirely in both modes: the scan
continues with no entry produced, no id consumed, and no error. -/
theorem comment_line_skipped_when_not_entry_shaped
    (strict : Bool) (l : Str) (rest : List Str) (ln k : Int)
    (h1 : (goTrimSpace l).head? = some '#')
    (h2 : isDisabledEntry l = false) :
    parseLines strict (l :: rest) ln k = parseLines strict rest (ln + 1) k := by
  have hne : (goTrimSpace l).isEmpty = false := by
    cases htr : goTrimSpace l with
    | nil => rw [htr] at h1; cases h1
    | cons a b => rfl
  simp only [parseLines, hne, h1, h2]
  simp

/-- Witness for C4's amended skip property at the comment line
`# word` (single token after the marker: not entry-shaped). -/
theorem comment_line_skipped_when_not_entry_shaped_witness :
    (goTrimSpace "# word".data).head? = some '#' ∧
    isDisabledEntry "# word".data = false ∧
    parseLines true ["# word".data] 0 1 = parseLines true [] 1 1 :=
  ⟨by decide, by decide,
   comment_line_skipped_when_not_entry_shaped true _ [] 0 1 (by decide) (by decide)⟩

/-- Counterexample for C4 as stated: `"# a   "` is purely a comment
(its remainder after stripping `'#'` holds a single token, so it cannot
be one IP token plus at least one hostname token), yet strict parsing
fails on it: the entry regex matches the line with a non-blank comment
prefix (the lazy group capturing a lone space), so it is classified as
a disabled-entry candidate and IP validation of `"a"` aborts the
parse. -/
theorem pure_comment_strict_parse_error :
    ("# a   ".data).head? = some '#' ∧
    (goFields (("# a   ".data).drop 1)).length = 1 ∧
    goParse true "# a   \n".data =
      .error ⟨1, "# a   ".data, "invalid IP address: a".data⟩ :=
  ⟨rfl, rfl, rfl⟩

/-! ## Claim C5 -/

theorem dval_ge (p : Str) (a : Nat) (hd : p.all isDigitCh = true) :
    a * 10 ^ p.length ≤ p.foldl (fun x c => x * 10 + (c.toNat - 48)) a := by
  induction p generalizing a with
  | nil => simp
  | cons c rest ih =>
    simp only [List.all_cons, Bool.and_eq_true] at hd
    simp only [List.foldl_cons, List.length_cons]
    calc a * 10 ^ (rest.length + 1) = (a * 10) * 10 ^ rest.length := by ring
      _ ≤ (a * 10 + (c.toNat - 48)) * 10 ^ rest.length :=
          Nat.mul_le_mul_right _ (by omega)
      _ ≤ _ := ih _ hd.2

/-- The per-part condition of `Parser.isValidIP` is exactly the
specification's group condition: the code's extra `length ≤ 3` test is
implied by "digits, value ≤ 255, no leading zero". -/
theorem ipPartOK_iff_spec (p : Str) :
    ipPartOK p = true ↔
      (p ≠ [] ∧ p.all isDigitCh = true ∧ digitsVal p ≤ 255 ∧
        (1 < p.length → p.head? ≠ some '0')) := by
  unfold ipPartOK
  simp only [Bool.and_eq_true, decide_eq_true_eq, Bool.not_eq_true',
    Bool.and_eq_false_iff, decide_eq_false_iff_not, not_lt]
  constructor
  · rintro ⟨⟨⟨⟨h1, _⟩, h3⟩, h4⟩, h5⟩
    refine ⟨fun he => h1 (by simp [he]), h3, h4, fun hlen => ?_⟩
    rcases h5 with h5 | h5
    · omega
    · exact h5
  · rintro ⟨h1, h3, h4, h5⟩
    have hlen3 : p.length ≤ 3 := by
      by_contra hlen
      push_neg at hlen
      rcases p with _ | ⟨c, rest⟩
      · simp at hlen
      · have hc0 : c ≠ '0' := by
          intro hc
          refine h5 ?_ ?_
          · simp only [List.length_cons] at hlen ⊢
            omega
          · simp [hc]
        simp only [List.all_cons, Bool.and_eq_true] at h3
        have hdig : 48 ≤ c.toNat ∧ c.toNat ≤ 57 := by
          have := h3.1
          unfold isDigitCh at this
          simp only [Bool.and_eq_true, decide_eq_true_eq] at this
          exact this
        have hc48 : c.toNat ≠ 48 := by
          intro hh
          apply hc0
          rw [← Char.ofNat_toNat c, hh]
        have hge : (c.toNat - 48) * 10 ^ rest.length ≤ digitsVal (c :: rest) := by
          unfold digitsVal
          simpa using dval_ge rest (c.toNat - 48) h3.2
        have hpow : 10 ^ 3 ≤ 10 ^ rest.length := by
          apply Nat.pow_le_pow_right (by norm_num)
          simp only [List.length_cons] at hlen
          omega
        have : 1000 ≤ digitsVal (c :: rest) := by
          have h1le : 1 ≤ c.toNat - 48 := by omega
          calc (1000 : Nat) = 1 * 10 ^ 3 := by norm_num
            _ ≤ (c.toNat - 48) * 10 ^ rest.length := Nat.mul_le_mul h1le hpow
            _ ≤ _ := hge
        omega
    refine ⟨⟨⟨⟨fun hl => h1 (List.length_eq_zero.mp hl), hlen3⟩, h3⟩, h4⟩, ?_⟩
    by_cases hl1 : 1 < p.length
    · exact Or.inr (h5 hl1)
    · exact Or.inl (by omega)

/-- C5 (amended): on every string with exactly four dot-separated
groups, the parser's IP validator accepts iff the specification's IPv4
condition holds (each group a decimal value in [0,255] with no leading
zero unless exactly "0").  `pkg.ValidateIPv4`'s regex instead admits
leading zeros — see the counterexample. -/
theorem isValidIP_dotted_quad_iff_spec (s : Str)
    (h4 : (splitCh '.' s).length = 4) :
    isValidIP s = true ↔ specIPv4 s := by
  unfold isValidIP specIPv4
  rw [if_neg (by omega)]
  rw [List.all_eq_true]
  simp only [h4, true_and]
  constructor
  · intro h p hp
    exact (ipPartOK_iff_spec p).mp (h p hp)
  · intro h p hp
    exact (ipPartOK_iff_spec p).mpr (h p hp)

/-- Witness for C5 at `0.0.0.0`. -/
theorem isValidIP_dotted_quad_iff_spec_witness :
    (splitCh '.' "0.0.0.0".data).length = 4 ∧
    (isValidIP "0.0.0.0".data = true ↔ specIPv4 "0.0.0.0".data) :=
  ⟨by decide, isValidIP_dotted_quad_iff_spec _ (by decide)⟩

/-! ## Claim C7 -/

theorem seenGet_insert (m : List (Str × List Int)) (n q : Str) (id : Int) :
    seenGet (seenInsert m n id) q =
      if n = q then seenGet m q ++ [id] else seenGet m q := by
  induction m with
  | nil =>
    by_cases h : n = q <;> simp [seenInsert, seenGet, h]
  | cons b rest ih =>
    obtain ⟨p, ids⟩ := b
    by_cases hpn : p = n <;> by_cases hq : p = q
    · have hnq : n = q := hpn ▸ hq
      simp [seenInsert, seenGet, hpn, hq, hnq]
    · have hnq : ¬ n = q := fun h => hq (hpn ▸ h)
      simp [seenInsert, seenGet, hpn, hq, hnq]
    · have hnq : ¬ n = q := fun h => hpn (hq.trans h.symm)
      have hqn : ¬ q = n := fun h => hnq h.symm
      simp [seenInsert, seenGet, hpn, hq, hnq, hqn]
    · simp [seenInsert, seenGet, hpn, hq, ih]

theorem seenKeys_insert (m : List (Str × List Int)) (n : Str) (id : Int) :
    seenKeys (seenInsert m n id) =
      if n ∈ seenKeys m then seenKeys m else seenKeys m ++ [n] := by
  induction m with
  | nil => simp [seenInsert, seenKeys]
  | cons b rest ih =>
    obtain ⟨p, ids⟩ := b
    by_cases hpn : p = n
    · have hmem : n ∈ seenKeys ((p, ids) :: rest) := by
        show n ∈ p :: seenKeys rest
        rw [hpn]
        exact List.mem_cons_self n _
      simp only [seenInsert, if_pos hpn, if_pos hmem]
      rfl
    · have hkeys : seenKeys ((p, ids) :: seenInsert rest n id) =
          p :: seenKeys (seenInsert rest n id) := rfl
      by_cases hin : n ∈ seenKeys rest
      · have hmem : n ∈ seenKeys ((p, ids) :: rest) :=
          List.mem_cons_of_mem _ hin
        simp only [seenInsert, if_neg hpn, hkeys, ih, if_pos hin, if_pos hmem]
        rfl
      · have hmem : ¬ n ∈ seenKeys ((p, ids) :: rest) := by
          intro h
          rcases List.mem_cons.mp (show n ∈ p :: seenKeys rest from h) with h | h
          · exact hpn h.symm
          · exact hin h
        simp only [seenInsert, if_neg hpn, hkeys, ih, if_neg hin, if_neg hmem]
        rfl

theorem seenKeys_insert_nodup (m : List (Str × List Int)) (n : Str) (id : Int)
    (h : (seenKeys m).Nodup) : (seenKeys (seenInsert m n id)).Nodup := by
  rw [seenKeys_insert]
  by_cases hin : n ∈ seenKeys m
  · simpa [hin] using h
  · rw [if_neg hin, List.nodup_append]
    refine ⟨h, List.nodup_singleton n, ?_⟩
    intro a ha hb
    rw [List.mem_singleton] at hb
    subst hb
    exact hin ha

theorem seenGet_mem (m : List (Str × List Int)) (name : Str)
    (h : name ∈ seenKeys m) : (name, seenGet m name) ∈ m := by
  induction m with
  | nil => cases h
  | cons b rest ih =>
    obtain ⟨p, ids⟩ := b
    by_cases hp : p = name
    · subst hp
      simp [seenGet]
    · have hmem : name ∈ seenKeys rest := by
        rcases List.mem_cons.mp (show name ∈ p :: seenKeys rest from h) with h' | h'
        · exact absurd h'.symm hp
        · exact h'
      simp only [seenGet, if_neg hp]
      exact List.mem_cons_of_mem _ (ih hmem)

theorem seenGet_ne_nil_mem_keys (m : List (Str × List Int)) (name : Str)
    (h : seenGet m name ≠ []) : name ∈ seenKeys m := by
  induction m with
  | nil => exact absurd rfl h
  | cons b rest ih =>
    obtain ⟨p, ids⟩ := b
    by_cases hp : p = name
    · show name ∈ p :: seenKeys rest
      rw [hp]
      exact List.mem_cons_self name _
    · simp only [seenGet, if_neg hp] at h
      show name ∈ p :: seenKeys rest
      exact List.mem_cons_of_mem _ (ih h)

theorem seenGet_insertEntry (m : List (Str × List Int)) (e : PEntry) (q : Str) :
    seenGet (seenInsertEntry m e) q =
      seenGet m q ++ (e.names.filter (fun n => decide (n = q))).map (fun _ => e.id) := by
  unfold seenInsertEntry
  generalize e.names = ns
  induction ns generalizing m with
  | nil => simp
  | cons n rest ih =>
    simp only [List.foldl_cons, List.filter_cons]
    rw [ih, seenGet_insert]
    by_cases hq : n = q
    · simp [hq]
    · simp [hq]

theorem seenKeys_insertEntry_nodup (m : List (Str × List Int)) (e : PEntry)
    (h : (seenKeys m).Nodup) : (seenKeys (seenInsertEntry m e)).Nodup := by
  unfold seenInsertEntry
  generalize e.names = ns
  induction ns generalizing m with
  | nil => exact h
  | cons n rest ih =>
    simp only [List.foldl_cons]
    exact ih _ (seenKeys_insert_nodup m n e.id h)

theorem verifyPass_snd (es : List PEntry) (acc : List Str × List (Str × List Int)) :
    (es.foldl verifyStep acc).2 = es.foldl seenStep acc.2 := by
  induction es generalizing acc with
  | nil => rfl
  | cons e rest ih =>
    simp only [List.foldl_cons]
    rw [ih]
    congr 1
    unfold verifyStep seenStep
    by_cases h : (!e.isValidEntry) = true
    · simp [h]
    · simp [h]

theorem seenFold_get (es : List PEntry) (m : List (Str × List Int)) (q : Str) :
    seenGet (es.foldl seenStep m) q = seenGet m q ++ ownersM q es := by
  induction es generalizing m with
  | nil => simp [ownersM]
  | cons e rest ih =>
    rcases hv : e.isValidEntry with _ | _
    · simp only [List.foldl_cons, seenStep, hv, Bool.not_false, if_pos]
      rw [ih]
      simp [ownersM, hv]
    · simp only [List.foldl_cons, seenStep, hv, Bool.not_true, Bool.false_eq_true, if_false]
      rw [ih, seenGet_insertEntry]
      simp [ownersM, hv, List.append_assoc]

theorem seenFold_nodup (es : List PEntry) (m : List (Str × List Int))
    (h : (seenKeys m).Nodup) : (seenKeys (es.foldl seenStep m)).Nodup := by
  induction es generalizing m with
  | nil => exact h
  | cons e rest ih =>
    simp only [List.foldl_cons]
    apply ih
    unfold seenStep
    split
    · exact h
    · exact seenKeys_insertEntry_nodup m e h

theorem countP_le_flatMap_length {α β : Type} (es : List α) (P : α → Bool)
    (f : α → List β) (h : ∀ e ∈ es, P e = true → 1 ≤ (f e).length) :
    es.countP P ≤ (es.flatMap f).length := by
  induction es with
  | nil => simp
  | cons e rest ih =>
    simp only [List.countP_cons, List.flatMap_cons, List.length_append]
    have hr := ih (fun x hx hP => h x (List.mem_cons_of_mem e hx) hP)
    rcases hP : P e with _ | _
    · simp only [hP, Bool.false_eq_true, if_false]
      omega
    · have hf := h e (List.mem_cons_self e rest) hP
      simp only [hP, if_true]
      omega

theorem nodup_countP_eq_le_one {α : Type} [DecidableEq α] (l : List α) (h : l.Nodup)
    (a : α) : l.countP (fun x => decide (x = a)) ≤ 1 := by
  induction l with
  | nil => simp
  | cons b rest ih =>
    rw [List.countP_cons]
    rcases List.nodup_cons.mp h with ⟨hb, hrest⟩
    by_cases hba : b = a
    · subst hba
      have hz : rest.countP (fun x => decide (x = b)) = 0 := by
        rw [List.countP_eq_zero]
        intro x hx
        simp only [decide_eq_true_eq]
        intro hxa
        exact hb (hxa ▸ hx)
      simp [hz]
    · have hd : (decide (b = a)) = false := by simp [hba]
      rw [hd]
      simpa using ih hrest

/-- The general duplicate-reporting property of `Store.Verify`: for any
entry list whose entries all carry a non-empty ip (as every parsed
entry does), a hostname owned by at least two entries gives rise to
exactly one duplicate issue, and its id list contains every owning
entry's id. -/
theorem verify_duplicate_general (es : List PEntry)
    (hip : ∀ e ∈ es, e.ip ≠ []) (name : Str)
    (hdup : 2 ≤ es.countP (fun e => decide (name ∈ e.names))) :
    ∃ ids, (name, ids) ∈ dupPairs es ∧
      (dupPairs es).countP (fun p => decide (p.1 = name)) = 1 ∧
      (∀ e ∈ es, name ∈ e.names → e.id ∈ ids) ∧
      renderDup name ids ∈ verifyIssues es := by
  have hvalid : ∀ e ∈ es, name ∈ e.names → e.isValidEntry = true := by
    intro e he hn
    unfold PEntry.isValidEntry
    have h1 : e.ip.isEmpty = false := by
      cases hipe : e.ip with
      | nil => exact absurd hipe (hip e he)
      | cons a b => rfl
    have h2 : 0 < e.names.length := List.length_pos.mpr (List.ne_nil_of_mem hn)
    simp [h1, h2]
  have hseen : (verifyPass es).2 = es.foldl seenStep [] := verifyPass_snd es ([], [])
  have hget : seenGet (es.foldl seenStep []) name = ownersM name es := by
    rw [seenFold_get]; rfl
  have hlen : 2 ≤ (ownersM name es).length := by
    calc 2 ≤ es.countP (fun e => decide (name ∈ e.names)) := hdup
      _ ≤ (es.flatMap (fun e =>
            if !e.isValidEntry then []
            else (e.names.filter (fun n => decide (n = name))).map
              (fun _ => e.id))).length := by
          apply countP_le_flatMap_length
          intro e he hP
          simp only [decide_eq_true_eq] at hP
          rw [hvalid e he hP]
          simp only [Bool.not_true, Bool.false_eq_true, if_false, List.length_map]
          have : name ∈ e.names.filter (fun n => decide (n = name)) :=
            List.mem_filter.mpr ⟨hP, by simp⟩
          have := List.length_pos.mpr (List.ne_nil_of_mem this)
          omega
      _ = (ownersM name es).length := rfl
  set ids := ownersM name es with hids
  have hne : ids ≠ [] := by
    intro h
    rw [h] at hlen
    simp at hlen
  have hmemkeys : name ∈ seenKeys (es.foldl seenStep []) :=
    seenGet_ne_nil_mem_keys _ _ (by rw [hget]; exact hne)
  have hmem : (name, ids) ∈ (verifyPass es).2 := by
    rw [hseen, ← hget]
    exact seenGet_mem _ _ hmemkeys
  have hpair : (name, ids) ∈ dupPairs es := by
    unfold dupPairs
    apply List.mem_filter.mpr
    exact ⟨hmem, by simp; omega⟩
  refine ⟨ids, hpair, ?_, ?_, ?_⟩
  · -- exactly one pair (and hence one issue) per duplicated name
    have hnodup : (seenKeys ((verifyPass es).2)).Nodup := by
      rw [hseen]
      exact seenFold_nodup es [] (by simp [seenKeys])
    have hle : (dupPairs es).countP (fun p => decide (p.1 = name)) ≤
        ((verifyPass es).2).countP (fun p => decide (p.1 = name)) :=
      (List.filter_sublist _).countP_le _
    have hkeys : ((verifyPass es).2).countP (fun p => decide (p.1 = name)) =
        (seenKeys ((verifyPass es).2)).countP (fun k => decide (k = name)) := by
      unfold seenKeys
      rw [List.countP_map]
      rfl
    have hone : (seenKeys ((verifyPass es).2)).countP (fun k => decide (k = name)) ≤ 1 :=
      nodup_countP_eq_le_one _ hnodup name
    have hpos : 0 < (dupPairs es).countP (fun p => decide (p.1 = name)) :=
      List.countP_pos_iff.mpr ⟨(name, ids), hpair, by simp⟩
    omega
  · intro e he hn
    rw [hids]
    unfold ownersM
    apply List.mem_flatMap.mpr
    refine ⟨e, he, ?_⟩
    rw [hvalid e he hn]
    simp only [Bool.not_true, Bool.false_eq_true, if_false]
    apply List.mem_map.mpr
    exact ⟨name, List.mem_filter.mpr ⟨hn, by simp⟩, rfl⟩
  · unfold verifyIssues
    apply List.mem_append_right
    exact List.mem_map.mpr ⟨(name, ids), hpair, rfl⟩

/-- C7: `Verify` reports each hostname owned by more than one entry
exactly once, listing every owning entry id; the two-entry scenario
document yields exactly the single issue string referencing ids 1 and
2; and `Verify` never writes to the filesystem. -/
theorem verify_duplicate_reporting :
    (∀ es : List PEntry, (∀ e ∈ es, e.ip ≠ []) → ∀ name : Str,
      2 ≤ es.countP (fun e => decide (name ∈ e.names)) →
      ∃ ids, (name, ids) ∈ dupPairs es ∧
        (dupPairs es).countP (fun p => decide (p.1 = name)) = 1 ∧
        (∀ e ∈ es, name ∈ e.names → e.id ∈ ids) ∧
        renderDup name ids ∈ verifyIssues es) ∧
    goVerify true "127.0.0.1 a\n127.0.0.1 a\n".data =
      .ok ["duplicate hostname 'a' found in entries: [1 2]".data] ∧
    (∀ (strict : Bool) (fs : FS) (path : Str), (goVerifyFS strict fs path).2 = fs) :=
  ⟨verify_duplicate_general, rfl, fun _ _ _ => rfl⟩

/-- Witness for C7 at the scenario document's two entries. -/
theorem verify_duplicate_reporting_witness :
    (∀ e ∈ [(⟨1, "127.0.0.1".data, ["a".data], [], false, "127.0.0.1 a".data⟩ : PEntry),
        ⟨2, "127.0.0.1".data, ["a".data], [], false, "127.0.0.1 a".data⟩], e.ip ≠ []) ∧
    2 ≤ [(⟨1, "127.0.0.1".data, ["a".data], [], false, "127.0.0.1 a".data⟩ : PEntry),
        ⟨2, "127.0.0.1".data, ["a".data], [], false, "127.0.0.1 a".data⟩].countP
        (fun e => decide ("a".data ∈ e.names)) ∧
    (∃ ids, ("a".data, ids) ∈ dupPairs
        [(⟨1, "127.0.0.1".data, ["a".data], [], false, "127.0.0.1 a".data⟩ : PEntry),
         ⟨2, "127.0.0.1".data, ["a".data], [], false, "127.0.0.1 a".data⟩] ∧
      (dupPairs [(⟨1, "127.0.0.1".data, ["a".data], [], false, "127.0.0.1 a".data⟩ : PEntry),
         ⟨2, "127.0.0.1".data, ["a".data], [], false, "127.0.0.1 a".data⟩]).countP
        (fun p => decide (p.1 = "a".data)) = 1 ∧
      (∀ e ∈ [(⟨1, "127.0.0.1".data, ["a".data], [], false, "127.0.0.1 a".data⟩ : PEntry),
         ⟨2, "127.0.0.1".data, ["a".data], [], false, "127.0.0.1 a".data⟩],
        "a".data ∈ e.names → e.id ∈ ids) ∧
      renderDup "a".data ids ∈ verifyIssues
        [(⟨1, "127.0.0.1".data, ["a".data], [], false, "127.0.0.1 a".data⟩ : PEntry),
         ⟨2, "127.0.0.1".data, ["a".data], [], false, "127.0.0.1 a".data⟩]) :=
  ⟨by decide, by decide,
   verify_duplicate_reporting.1 _ (by decide) _ (by decide)⟩

/-- Counterexample for C5 as stated: the package-level IPv4 validator
(`pkg.ValidateIPv4`, cited by the claim) accepts `192.168.001.1`
although the claim requires it to be rejected (leading zero).  The
parser-level validator does reject it, and both agree on the other
three cited vectors. -/
theorem ipv4_validator_counterexample :
    pkgIsValidIPv4 "192.168.001.1".data = true ∧
    ¬ specIPv4 "192.168.001.1".data ∧
    isValidIP "192.168.001.1".data = false ∧
    isValidIP "256.0.0.1".data = false ∧
    pkgIsValidIPv4 "256.0.0.1".data = false ∧
    isValidIP "0.0.0.0".data = true ∧
    isValidIP "255.255.255.255".data = true := by decide

/-! ## Round-trip development: character classes -/

theorem PlainCh.ne_nl {c : Char} (h : PlainCh c) : c ≠ '\n' := by
  intro hc
  subst hc
  exact absurd h.1 (by decide)

theorem PlainCh.ne_tab {c : Char} (h : PlainCh c) : c ≠ '\t' := by
  intro hc
  subst hc
  exact absurd h.1 (by decide)

theorem PlainCh.ne_hash {c : Char} (h : PlainCh c) : c ≠ '#' := h.2.2

theorem PlainCh.not_regexSpace {c : Char} (h : PlainCh c) : regexSpace c = false := h.1

theorem PlainCh.not_goSpace {c : Char} (h : PlainCh c) : goIsSpace c = false := h.2.1

/-- Every character of the classes occurring in valid IPs and
hostnames (digits, letters, hex letters, dot, colon, hyphen) is
plain. -/
theorem plain_of_class (c : Char)
    (h : isDigitCh c = true ∨ isAlnumCh c = true ∨ isHexCh c = true ∨
      c = '.' ∨ c = ':' ∨ c = '-') : PlainCh c := by
  have hn : (48 ≤ c.toNat ∧ c.toNat ≤ 57) ∨ (97 ≤ c.toNat ∧ c.toNat ≤ 122) ∨
      (65 ≤ c.toNat ∧ c.toNat ≤ 90) ∨ c.toNat = 46 ∨ c.toNat = 58 ∨ c.toNat = 45 := by
    rcases h with h | h | h | h | h | h
    · unfold isDigitCh at h
      simp only [Bool.and_eq_true, decide_eq_true_eq] at h
      exact Or.inl h
    · unfold isAlnumCh isDigitCh at h
      simp only [Bool.or_eq_true, Bool.and_eq_true, decide_eq_true_eq] at h
      rcases h with (h | h) | h
      · exact Or.inl h
      · exact Or.inr (Or.inl h)
      · exact Or.inr (Or.inr (Or.inl h))
    · unfold isHexCh isDigitCh at h
      simp only [Bool.or_eq_true, Bool.and_eq_true, decide_eq_true_eq] at h
      rcases h with (h | h) | h
      · exact Or.inl h
      · exact Or.inr (Or.inl ⟨by omega, by omega⟩)
      · exact Or.inr (Or.inr (Or.inl ⟨by omega, by omega⟩))
    · subst h; exact Or.inr (Or.inr (Or.inr (Or.inl (by decide))))
    · subst h; exact Or.inr (Or.inr (Or.inr (Or.inr (Or.inl (by decide)))))
    · subst h; exact Or.inr (Or.inr (Or.inr (Or.inr (Or.inr (by decide)))))
  refine ⟨?_, ?_, ?_⟩
  · unfold regexSpace
    simp only [Bool.or_eq_false_iff, decide_eq_false_iff_not]
    omega
  · unfold goIsSpace
    simp only [Bool.or_eq_false_iff, decide_eq_false_iff_not, Bool.and_eq_false_iff,
      not_le]
    omega
  · intro hc
    subst hc
    have : ('#').toNat = 35 := by decide
    omega

/-! ## Round-trip development: split membership -/

theorem splitCh_ne_nil (sep : Char) (cs : Str) : splitCh sep cs ≠ [] := by
  cases cs with
  | nil => simp [splitCh]
  | cons c rest =>
    unfold splitCh
    by_cases h : c = sep
    · simp [h]
    · simp only [if_neg h]
      cases hs : splitCh sep rest <;> simp

theorem mem_splitCh (sep : Char) (cs : Str) (c : Char) (h : c ∈ cs) :
    c = sep ∨ ∃ p ∈ splitCh sep cs, c ∈ p := by
  induction cs with
  | nil => cases h
  | cons x rest ih =>
    unfold splitCh
    by_cases hx : x = sep
    · rw [if_pos hx]
      rcases List.mem_cons.mp h with h | h
      · exact Or.inl (h.trans hx)
      · rcases ih h with h' | ⟨p, hp, hc⟩
        · exact Or.inl h'
        · exact Or.inr ⟨p, List.mem_cons_of_mem _ hp, hc⟩
    · rw [if_neg hx]
      cases hs : splitCh sep rest with
      | nil => exact absurd hs (splitCh_ne_nil sep rest)
      | cons p ps =>
        rcases List.mem_cons.mp h with h | h
        · exact Or.inr ⟨x :: p, List.mem_cons_self _ _, by simp [h]⟩
        · rcases ih h with h' | ⟨q, hq, hc⟩
          · exact Or.inl h'
          · rw [hs] at hq
            rcases List.mem_cons.mp hq with hq | hq
            · exact Or.inr ⟨x :: p, List.mem_cons_self _ _,
                List.mem_cons_of_mem _ (hq ▸ hc)⟩
            · exact Or.inr ⟨q, List.mem_cons_of_mem _ hq, hc⟩

theorem splitDC_ne_nil (cs : Str) : splitDC cs ≠ [] := by
  induction cs using splitDC.induct with
  | case1 rest ih => simp [splitDC]
  | case2 c rest hno h t heq ih =>
    rw [splitDC.eq_def]
    split
    · simp
    · split <;> simp
    · simp
  | case3 c rest hno heq ih => exact absurd heq ih
  | case4 => simp [splitDC]

theorem splitDC_cons_eq (c : Char) (rest : Str)
    (hno : ∀ rest1, c = ':' → rest = ':' :: rest1 → False)
    (h : Str) (t : List Str) (heq : splitDC rest = h :: t) :
    splitDC (c :: rest) = (c :: h) :: t := by
  rw [splitDC.eq_def]
  split
  · rename_i rest1 heq2
    injection heq2 with h1 h2
    exact False.elim (hno rest1 h1 h2)
  · rename_i c2 rest2 hno2 heq2
    injection heq2 with h1 h2
    subst h1
    subst h2
    rw [heq]
  · rename_i heq2
    cases heq2

theorem mem_splitDC (cs : Str) (c : Char) (h : c ∈ cs) :
    c = ':' ∨ ∃ p ∈ splitDC cs, c ∈ p := by
  induction cs using splitDC.induct with
  | case1 rest ih =>
    rcases List.mem_cons.mp h with h' | h'
    · exact Or.inl h'
    · rcases List.mem_cons.mp h' with h'' | h''
      · exact Or.inl h''
      · rcases ih h'' with h3 | ⟨p, hp, hc⟩
        · exact Or.inl h3
        · exact Or.inr ⟨p, by
            rw [show splitDC (':' :: ':' :: rest) = [] :: splitDC rest from rfl]
            exact List.mem_cons_of_mem _ hp, hc⟩
  | case2 x rest hno ph pt heq ih =>
    rw [splitDC_cons_eq x rest hno ph pt heq]
    rcases List.mem_cons.mp h with h' | h'
    · exact Or.inr ⟨x :: ph, List.mem_cons_self _ _, by simp [h']⟩
    · rcases ih h' with h3 | ⟨p, hp, hc⟩
      · exact Or.inl h3
      · rw [heq] at hp
        rcases List.mem_cons.mp hp with hp | hp
        · exact Or.inr ⟨x :: ph, List.mem_cons_self _ _,
            List.mem_cons_of_mem _ (hp ▸ hc)⟩
        · exact Or.inr ⟨p, List.mem_cons_of_mem _ hp, hc⟩
  | case3 x rest hno heq ih => exact absurd heq (splitDC_ne_nil rest)
  | case4 => cases h

/-! ## Round-trip development: valid tokens are plain -/

theorem ipv6Part_chars (p : Str) (h : isValidIPv6Part p = true) :
    ∀ c ∈ p, isHexCh c = true := by
  unfold isValidIPv6Part at h
  simp only [Bool.and_eq_true, decide_eq_true_eq, List.all_eq_true] at h
  exact h.2

theorem isValidIPv6_plain (ip : Str) (h : isValidIPv6 ip = true) :
    ∀ c ∈ ip, PlainCh c := by
  intro c hc
  unfold isValidIPv6 at h
  by_cases hdc : hasDC ip = true
  · rw [if_pos hdc] at h
    rcases hsp : splitDC ip with _ | ⟨p0, _ | ⟨p1, _ | ⟨p2, ps⟩⟩⟩ <;> rw [hsp] at h
    · cases h
    · cases h
    · simp only [Bool.and_eq_true, decide_eq_true_eq, List.all_eq_true] at h
      rcases mem_splitDC ip c hc with h' | ⟨p, hp, hcp⟩
      · exact plain_of_class c (Or.inr (Or.inr (Or.inr (Or.inr (Or.inl h')))))
      · rw [hsp] at hp
        have hpart : ∀ q ∈ (if p0.isEmpty then [] else splitCh ':' p0) ++
            (if p1.isEmpty then [] else splitCh ':' p1), isValidIPv6Part q = true := h.2
        have hside : ∀ (x : Str), c ∈ x →
            (∀ q ∈ (if x.isEmpty then ([] : List Str) else splitCh ':' x),
              isValidIPv6Part q = true) → PlainCh c := by
          intro x hcx hall
          cases x with
          | nil => cases hcx
          | cons a as =>
            rw [show ((a :: as : Str).isEmpty) = false from rfl] at hall
            simp only [Bool.false_eq_true, if_false] at hall
            rcases mem_splitCh ':' (a :: as) c hcx with h' | ⟨q, hq, hcq⟩
            · exact plain_of_class c (Or.inr (Or.inr (Or.inr (Or.inr (Or.inl h')))))
            · exact plain_of_class c
                (Or.inr (Or.inr (Or.inl (ipv6Part_chars q (hall q hq) c hcq))))
        rcases List.mem_cons.mp hp with hp' | hp'
        · exact hside p0 (hp' ▸ hcp) (fun q hq => hpart q (List.mem_append_left _ hq))
        · rcases List.mem_cons.mp hp' with hp'' | hp''
          · exact hside p1 (hp'' ▸ hcp) (fun q hq => hpart q (List.mem_append_right _ hq))
          · cases hp''
    · cases h
  · rw [if_neg hdc] at h
    simp only [Bool.and_eq_true, decide_eq_true_eq, List.all_eq_true] at h
    rcases mem_splitCh ':' ip c hc with h' | ⟨p, hp, hcp⟩
    · exact plain_of_class c (Or.inr (Or.inr (Or.inr (Or.inr (Or.inl h')))))
    · exact plain_of_class c
        (Or.inr (Or.inr (Or.inl (ipv6Part_chars p (h.2 p hp) c hcp))))

theorem isValidIP_plain (ip : Str) (h : isValidIP ip = true) :
    ip ≠ [] ∧ ∀ c ∈ ip, PlainCh c := by
  constructor
  · intro he
    rw [he] at h
    exact absurd h (by decide)
  · intro c hc
    unfold isValidIP at h
    by_cases h4 : (splitCh '.' ip).length ≠ 4
    · rw [if_pos h4] at h
      exact isValidIPv6_plain ip h c hc
    · rw [if_neg h4] at h
      rcases mem_splitCh '.' ip c hc with h' | ⟨p, hp, hcp⟩
      · exact plain_of_class c (Or.inr (Or.inr (Or.inr (Or.inl h'))))
      · have hok := List.all_eq_true.mp h p hp
        unfold ipPartOK at hok
        simp only [Bool.and_eq_true, decide_eq_true_eq, List.all_eq_true] at hok
        exact plain_of_class c (Or.inl (hok.1.1.2 c hcp))

theorem labelMidOK_chars : ∀ (l : Str), labelMidOK l = true →
    ∀ c ∈ l, isAlnumCh c = true ∨ c = '-' := by
  intro l
  induction l with
  | nil => intro h c hc; cases hc
  | cons a rest ih =>
    intro h c hc
    cases rest with
    | nil =>
      have ha : isAlnumCh a = true := h
      have : c = a := by simpa using hc
      exact Or.inl (this ▸ ha)
    | cons b rest' =>
      have h' : ((isAlnumCh a || decide (a = '-')) && labelMidOK (b :: rest')) = true := h
      simp only [Bool.and_eq_true, Bool.or_eq_true, decide_eq_true_eq] at h'
      rcases List.mem_cons.mp hc with rfl | hc'
      · exact h'.1
      · exact ih h'.2 c hc'

theorem labelOK_chars (l : Str) (h : labelOK l = true) :
    ∀ c ∈ l, isAlnumCh c = true ∨ c = '-' := by
  intro c hc
  cases l with
  | nil => cases hc
  | cons a rest =>
    cases rest with
    | nil =>
      have ha : isAlnumCh a = true := h
      have : c = a := by simpa using hc
      exact Or.inl (this ▸ ha)
    | cons b rest' =>
      have h' : (isAlnumCh a && decide ((b :: rest').length ≤ 62) &&
          labelMidOK (b :: rest')) = true := h
      simp only [Bool.and_eq_true, decide_eq_true_eq] at h'
      rcases List.mem_cons.mp hc with rfl | hc'
      · exact Or.inl h'.1.1
      · exact labelMidOK_chars _ h'.2 c hc'

theorem isValidHostname_plain (n : Str) (h : isValidHostname n = true) :
    n ≠ [] ∧ ∀ c ∈ n, PlainCh c := by
  constructor
  · intro he
    rw [he] at h
    exact absurd h (by decide)
  · intro c hc
    unfold isValidHostname at h
    split at h
    · cases h
    · split at h
      · rename_i hloc
        have hall : ∀ x ∈ "localhost".data, PlainCh x := by decide
        exact hall c (hloc ▸ hc)
      · unfold hostRegexMatch at h
        rcases mem_splitCh '.' n c hc with h' | ⟨p, hp, hcp⟩
        · exact plain_of_class c (Or.inr (Or.inr (Or.inr (Or.inl h'))))
        · rcases labelOK_chars p (List.all_eq_true.mp h p hp) c hcp with ha | ha
          · exact plain_of_class c (Or.inr (Or.inl ha))
          · exact plain_of_class c (Or.inr (Or.inr (Or.inr (Or.inr (Or.inr ha)))))

/-! ## Round-trip development: runLen and TrimSpace -/

theorem runLen_cons_neg (p : Char → Bool) (c : Char) (cs : Str) (h : p c = false) :
    runLen p (c :: cs) = 0 := by
  simp [runLen, h]

theorem runLen_append_stop (p : Char → Bool) (xs : Str) (y : Char) (ys : Str)
    (hx : ∀ x ∈ xs, p x = true) (hy : p y = false) :
    runLen p (xs ++ y :: ys) = xs.length := by
  induction xs with
  | nil => simp [runLen, hy]
  | cons a rest ih =>
    have ha : p a = true := hx a (List.mem_cons_self a rest)
    have ih' := ih (fun x hx' => hx x (List.mem_cons_of_mem a hx'))
    simp only [List.cons_append, runLen, ha, if_true, List.length_cons, List.append_eq]
    omega

theorem dropWhile_append_singleton (p : Char → Bool) (l : Str) (a : Char)
    (h : p a = false) : (l ++ [a]).dropWhile p = l.dropWhile p ++ [a] := by
  induction l with
  | nil => simp [List.dropWhile, h]
  | cons c rest ih =>
    by_cases hc : p c = true
    · simp only [List.cons_append, List.dropWhile_cons_of_pos hc, ih]
    · rw [List.cons_append]
      rw [List.dropWhile_cons_of_neg (by simpa using hc),
          List.dropWhile_cons_of_neg (by simpa using hc)]
      simp

theorem goTrimRight_cons (x : Char) (xs : Str) (h : goIsSpace x = false) :
    goTrimRight (x :: xs) = x :: goTrimRight xs := by
  unfold goTrimRight
  rw [List.reverse_cons, dropWhile_append_singleton _ _ _ h, List.reverse_append]
  rfl

theorem goTrimSpace_cons (x : Char) (xs : Str) (h : goIsSpace x = false) :
    goTrimSpace (x :: xs) = x :: goTrimRight xs := by
  unfold goTrimSpace goTrimLeft
  rw [List.dropWhile_cons_of_neg (by simp [h])]
  exact goTrimRight_cons x xs h

theorem goTrimRight_eq_self (xs : Str)
    (h : ∀ y, xs.getLast? = some y → goIsSpace y = false) : goTrimRight xs = xs := by
  unfold goTrimRight
  cases hxs : xs.reverse with
  | nil =>
    have : xs = [] := by simpa using congrArg List.reverse hxs
    simp [this]
  | cons y ys =>
    have hy : xs.getLast? = some y := by
      rw [← List.head?_reverse, hxs]
      rfl
    rw [List.dropWhile_cons_of_neg (by simp [h y hy])]
    rw [← hxs, List.reverse_reverse]

theorem goTrimSpace_eq_self (xs : Str)
    (hh : ∀ y, xs.head? = some y → goIsSpace y = false)
    (hl : ∀ y, xs.getLast? = some y → goIsSpace y = false) : goTrimSpace xs = xs := by
  cases xs with
  | nil => rfl
  | cons x rest =>
    rw [goTrimSpace_cons x rest (hh x rfl)]
    cases hres : rest.getLast? with
    | none =>
      have : rest = [] := by
        cases rest with
        | nil => rfl
        | cons a b => simp at hres
      simp [this, goTrimRight]
    | some y =>
      have : (x :: rest).getLast? = some y := by
        rw [List.getLast?_cons, hres]
        cases rest <;> simp_all [List.getLast?_cons]
      rw [goTrimRight_eq_self rest (fun z hz => by
        rw [hres] at hz
        injection hz with hz
        exact hz ▸ hl y this)]

theorem goTrimSpace_all_nonspace (xs : Str)
    (h : ∀ c ∈ xs, goIsSpace c = false) : goTrimSpace xs = xs := by
  apply goTrimSpace_eq_self
  · intro y hy
    cases xs with
    | nil => cases hy
    | cons a rest =>
      injection hy with hy
      exact h y (hy ▸ List.mem_cons_self a rest)
  · intro y hy
    exact h y (List.mem_of_mem_getLast? hy)

/-! ## Round-trip development: the tail matcher on generated lines -/

theorem matchTail_nil : matchTail [] = some [] := rfl

theorem matchTail_plain_head (c : Char) (cs : Str) (h : PlainCh c) :
    matchTail (c :: cs) = none := by
  unfold matchTail
  rw [runLen_cons_neg _ _ _ h.not_regexSpace]
  simp only [List.drop_zero]
  split
  · rename_i r2 heq
    injection heq with h1
    exact absurd h1 h.ne_hash
  · rfl

theorem matchTail_tab_plain (c : Char) (cs : Str) (h : PlainCh c) :
    matchTail ('\t' :: c :: cs) = none := by
  unfold matchTail
  have h1 : runLen regexSpace ('\t' :: c :: cs) = 1 := by
    simp [runLen, h.not_regexSpace, show regexSpace '\t' = true from rfl]
  rw [h1]
  simp only [List.drop_succ_cons, List.drop_zero]
  split
  · rename_i r2 heq
    injection heq with h1
    exact absurd h1 h.ne_hash
  · rfl

theorem matchTail_comment (c : Str) (hne : c ≠ [])
    (hhead : ∀ y, c.head? = some y → regexSpace y = false)
    (hnl : '\n' ∉ c) :
    matchTail ('\t' :: '#' :: ' ' :: c) = some c := by
  unfold matchTail
  have h1 : runLen regexSpace ('\t' :: '#' :: ' ' :: c) = 1 := by
    simp [runLen, show regexSpace '\t' = true from rfl,
      show regexSpace '#' = false from rfl]
  rw [h1]
  simp only [List.drop_succ_cons, List.drop_zero]
  have h2 : runLen regexSpace (' ' :: c) = 1 := by
    cases c with
    | nil => exact absurd rfl hne
    | cons y ys =>
      simp [runLen, show regexSpace ' ' = true from rfl, hhead y rfl]
  rw [h2]
  simp only [List.drop_succ_cons, List.drop_zero]
  have h3 : c.contains '\n' = false := by
    cases hcon : c.contains '\n'
    · rfl
    · exact absurd (List.mem_of_elem_eq_true hcon) hnl
  rw [h3]
  rfl

/-! ## Round-trip development: the lazy group on generated lines -/

/-- Walking the lazy `(.+?)` over one plain word: the tail matcher
cannot fire inside the word, so the search either succeeds right after
it or continues beyond it. -/
theorem midSearch_cons_eq (acc : Str) (c : Char) (rest : Str) :
    midSearch acc (c :: rest) =
      if c = '\n' then none
      else
        match matchTail rest with
        | some g4 => some (acc ++ [c], g4)
        | none => midSearch (acc ++ [c]) rest := rfl

theorem midSearch_cons_none (acc : Str) (c : Char) (rest : Str) (hc : c ≠ '\n')
    (hmt : matchTail rest = none) :
    midSearch acc (c :: rest) = midSearch (acc ++ [c]) rest := by
  rw [midSearch_cons_eq, if_neg hc, hmt]

theorem midSearch_word (w : Str) : ∀ (rest acc : Str), w ≠ [] →
    (∀ c ∈ w, PlainCh c) →
    midSearch acc (w ++ rest) =
      match matchTail rest with
      | some g => some (acc ++ w, g)
      | none => midSearch (acc ++ w) rest := by
  induction w with
  | nil =>
    intro rest acc hne _
    exact absurd rfl hne
  | cons x w' ih =>
    intro rest acc _ hp
    have hx : PlainCh x := hp x (List.mem_cons_self x w')
    rw [List.cons_append, midSearch_cons_eq, if_neg hx.ne_nl]
    cases w' with
    | nil =>
      simp only [List.nil_append]
    | cons y w'' =>
      have hy : PlainCh y := hp y (List.mem_cons_of_mem x (List.mem_cons_self y w''))
      rw [show (y :: w'') ++ rest = y :: (w'' ++ rest) from rfl,
        matchTail_plain_head y (w'' ++ rest) hy]
      rw [show y :: (w'' ++ rest) = (y :: w'') ++ rest from rfl]
      rw [ih rest (acc ++ [x]) (by simp) (fun c hc => hp c (List.mem_cons_of_mem x hc))]
      cases matchTail rest with
      | some g => simp
      | none => simp

theorem intercalate_pair (n m : Str) (ns : List Str) :
    List.intercalate ['\t'] (n :: m :: ns) =
      n ++ '\t' :: List.intercalate ['\t'] (m :: ns) := by
  simp [List.intercalate]

theorem intercalate_one (n : Str) : List.intercalate ['\t'] [n] = n := by
  simp [List.intercalate]

theorem intercalate_head_plain (ns : List Str) (hne : ns ≠ [])
    (hw : ∀ n ∈ ns, PlainWord n) :
    ∃ d ds, List.intercalate ['\t'] ns = d :: ds ∧ PlainCh d := by
  cases ns with
  | nil => exact absurd rfl hne
  | cons m ns' =>
    have hm : PlainWord m := hw m (List.mem_cons_self m ns')
    obtain ⟨d, m', hmd⟩ : ∃ d m', m = d :: m' := by
      cases m with
      | nil => exact absurd rfl hm.1
      | cons a b => exact ⟨a, b, rfl⟩
    have hdp : PlainCh d := hm.2 d (hmd ▸ List.mem_cons_self d m')
    cases ns' with
    | nil => exact ⟨d, m', by rw [intercalate_one, hmd], hdp⟩
    | cons k ks =>
      refine ⟨d, m' ++ '\t' :: List.intercalate ['\t'] (k :: ks), ?_, hdp⟩
      rw [intercalate_pair, hmd]
      rfl

/-- Walking the lazy group over the whole tab-joined name list: the
tail matcher fires exactly at its end, so group 3 captures the joined
names and group 4 the tail's capture. -/
theorem midSearch_words (ns : List Str) : ∀ (acc tail cap : Str), ns ≠ [] →
    (∀ n ∈ ns, PlainWord n) → matchTail tail = some cap →
    midSearch acc (List.intercalate ['\t'] ns ++ tail) =
      some (acc ++ List.intercalate ['\t'] ns, cap) := by
  induction ns with
  | nil =>
    intro acc tail cap hne _ _
    exact absurd rfl hne
  | cons n ns' ih =>
    intro acc tail cap _ hw htail
    have hn : PlainWord n := hw n (List.mem_cons_self n ns')
    cases ns' with
    | nil =>
      rw [intercalate_one, midSearch_word n tail acc hn.1 hn.2, htail]
    | cons m ns'' =>
      rw [intercalate_pair]
      rw [show (n ++ '\t' :: List.intercalate ['\t'] (m :: ns'')) ++ tail =
          n ++ ('\t' :: (List.intercalate ['\t'] (m :: ns'') ++ tail)) from by simp]
      rw [midSearch_word n _ acc hn.1 hn.2]
      obtain ⟨d, ds, hd, hdp⟩ := intercalate_head_plain (m :: ns'') (by simp)
        (fun x hx => hw x (List.mem_cons_of_mem n hx))
      rw [show ('\t' :: (List.intercalate ['\t'] (m :: ns'') ++ tail)) =
          '\t' :: d :: (ds ++ tail) from by rw [hd]; rfl]
      rw [matchTail_tab_plain d (ds ++ tail) hdp]
      show midSearch (acc ++ n) ('\t' :: d :: (ds ++ tail)) = _
      rw [midSearch_cons_none (acc ++ n) '\t' (d :: (ds ++ tail)) (by decide)
        (matchTail_plain_head d (ds ++ tail) hdp)]
      rw [show d :: (ds ++ tail) = (d :: ds) ++ tail from rfl, ← hd]
      rw [ih (acc ++ n ++ ['\t']) tail cap (by simp)
        (fun x hx => hw x (List.mem_cons_of_mem n hx)) htail]
      simp [List.append_assoc]

/-! ## Round-trip development: the body and full matchers -/

theorem matchBody_canonical (ip I tail cap : Str) (hip : PlainWord ip)
    (hIp : ∃ d ds, I = d :: ds ∧ PlainCh d)
    (hmid : midSearch [] (I ++ tail) = some (I, cap)) :
    matchBody (ip ++ '\t' :: (I ++ tail)) = some (ip, I, cap) := by
  unfold matchBody
  have ht : runLen (fun c => !regexSpace c) (ip ++ '\t' :: (I ++ tail)) = ip.length := by
    apply runLen_append_stop
    · intro x hx
      simp [(hip.2 x hx).not_regexSpace]
    · simp [show regexSpace '\t' = true from rfl]
  rw [ht]
  rw [if_neg (fun h => hip.1 (List.length_eq_zero.mp h))]
  rw [List.take_left, List.drop_left]
  obtain ⟨d, ds, hd, hdp⟩ := hIp
  have hm : runLen regexSpace ('\t' :: (I ++ tail)) = 1 := by
    rw [show ('\t' :: (I ++ tail)) = '\t' :: (I ++ tail) from rfl, hd]
    simp [runLen, hdp.not_regexSpace, show regexSpace '\t' = true from rfl]
  rw [hm]
  rw [show spaceAlts 1 = [1] from rfl]
  rw [List.findSome?_cons]
  rw [show (('\t' :: (I ++ tail)).drop 1) = I ++ tail from rfl]
  rw [show matchMid (I ++ tail) = midSearch [] (I ++ tail) from rfl, hmid]
  rfl

theorem entryMatch_enabled (ip X : Str) (hip : PlainWord ip)
    (g : Str × Str × Str) (hbody : matchBody (ip ++ '\t' :: X) = some g) :
    entryMatch (ip ++ '\t' :: X) = some ([], g.1, g.2.1, g.2.2) := by
  obtain ⟨x, ip', hx⟩ : ∃ x ip', ip = x :: ip' := by
    cases ip with
    | nil => exact absurd rfl hip.1
    | cons a b => exact ⟨a, b, rfl⟩
  have hxp : PlainCh x := hip.2 x (hx ▸ List.mem_cons_self x ip')
  unfold entryMatch
  have h0 : runLen regexSpace (ip ++ '\t' :: X) = 0 := by
    rw [hx, List.cons_append]
    exact runLen_cons_neg _ _ _ hxp.not_regexSpace
  rw [h0]
  simp only [List.drop_zero]
  split
  · rename_i r2 heq
    rw [hx, List.cons_append] at heq
    injection heq with h1
    exact absurd h1 hxp.ne_hash
  · show (matchBody (ip ++ '\t' :: X)).map
        (fun g => (([] : Str), g.1, g.2.1, g.2.2)) = _
    rw [hbody]
    rfl

theorem entryMatch_disabled (body : Str) (d : Char) (ds : Str) (hd : body = d :: ds)
    (hdp : PlainCh d) (g : Str × Str × Str) (hbody : matchBody body = some g) :
    entryMatch ('#' :: ' ' :: body) = some (['#', ' '], g.1, g.2.1, g.2.2) := by
  unfold entryMatch
  have h0 : runLen regexSpace ('#' :: ' ' :: body) = 0 :=
    runLen_cons_neg _ _ _ (show regexSpace '#' = false from rfl)
  rw [h0]
  simp only [List.drop_zero, List.take_zero]
  have h1 : runLen regexSpace (' ' :: body) = 1 := by
    rw [hd]
    simp [runLen, hdp.not_regexSpace, show regexSpace ' ' = true from rfl]
  rw [h1]
  simp only [List.drop_succ_cons, List.drop_zero, List.take_succ_cons, List.take_zero]
  rw [hbody]
  rfl
/-! ## Round-trip development: TrimSpace fixed points -/

theorem regexSpace_of_goIsSpace (c : Char) (h : goIsSpace c = false) :
    regexSpace c = false := by
  unfold goIsSpace at h
  unfold regexSpace
  simp only [Bool.or_eq_false_iff, decide_eq_false_iff_not, Bool.and_eq_false_iff,
    not_le] at h ⊢
  omega

theorem trim_self_head (c : Str) (h : goTrimSpace c = c) :
    ∀ y, c.head? = some y → goIsSpace y = false := by
  intro y hy
  cases c with
  | nil => cases hy
  | cons a rest =>
    have ha : a = y := by injection hy
    rw [← ha]
    cases hsp : goIsSpace a with
    | false => rfl
    | true =>
      exfalso
      have hlen : (goTrimSpace (a :: rest)).length ≤ rest.length := by
        unfold goTrimSpace goTrimRight goTrimLeft
        calc ((((a :: rest).dropWhile goIsSpace).reverse.dropWhile goIsSpace).reverse).length
            ≤ ((a :: rest).dropWhile goIsSpace).length := by
              rw [List.length_reverse]
              calc (((a :: rest).dropWhile goIsSpace).reverse.dropWhile goIsSpace).length
                  ≤ ((a :: rest).dropWhile goIsSpace).reverse.length :=
                    (List.dropWhile_suffix _).length_le
                _ = ((a :: rest).dropWhile goIsSpace).length := List.length_reverse _
          _ = (rest.dropWhile goIsSpace).length := by
              rw [List.dropWhile_cons_of_pos hsp]
          _ ≤ rest.length := (List.dropWhile_suffix _).length_le
      rw [h] at hlen
      simp at hlen

theorem trim_self_parts (c : Str) (h : goTrimSpace c = c) :
    goTrimLeft c = c ∧ goTrimRight c = c := by
  have hlen1 : (goTrimLeft c).length ≤ c.length := (List.dropWhile_suffix _).length_le
  have hlen2 : (goTrimRight (goTrimLeft c)).length ≤ (goTrimLeft c).length := by
    unfold goTrimRight
    calc ((goTrimLeft c).reverse.dropWhile goIsSpace).reverse.length
        = ((goTrimLeft c).reverse.dropWhile goIsSpace).length := List.length_reverse _
      _ ≤ (goTrimLeft c).reverse.length := (List.dropWhile_suffix _).length_le
      _ = (goTrimLeft c).length := List.length_reverse _
  have hfull : (goTrimSpace c).length = c.length := by rw [h]
  unfold goTrimSpace at hfull
  have hL : (goTrimLeft c).length = c.length := by omega
  have h1 : goTrimLeft c = c :=
    (List.dropWhile_suffix goIsSpace).eq_of_length hL
  refine ⟨h1, ?_⟩
  have h2 := h
  unfold goTrimSpace at h2
  rw [h1] at h2
  exact h2

theorem trim_self_last (c : Str) (h : goTrimSpace c = c) :
    ∀ y, c.getLast? = some y → goIsSpace y = false := by
  intro y hy
  have h2 : goTrimRight c = c := (trim_self_parts c h).2
  cases hsp : goIsSpace y with
  | false => rfl
  | true =>
    exfalso
    have hrev : c.reverse.head? = some y := by rw [List.head?_reverse]; exact hy
    cases hrc : c.reverse with
    | nil => rw [hrc] at hrev; cases hrev
    | cons a as =>
      rw [hrc] at hrev
      have ha : a = y := by injection hrev
      have hdw : c.reverse.dropWhile goIsSpace = c.reverse := by
        have h3 := congrArg List.reverse h2
        unfold goTrimRight at h3
        rw [List.reverse_reverse] at h3
        exact h3
      rw [hrc, List.dropWhile_cons_of_pos (by rw [ha]; exact hsp)] at hdw
      have h4 := congrArg List.length hdw
      have hle := (List.dropWhile_suffix goIsSpace (l := as)).length_le
      simp at h4
      omega

/-! ## Round-trip development: Fields on generated name lists -/

theorem goFieldsAux_nil (acc : Str) :
    goFieldsAux [] acc = if acc.isEmpty then [] else [acc.reverse] := rfl

theorem goFieldsAux_cons (c : Char) (x acc : Str) :
    goFieldsAux (c :: x) acc =
      if goIsSpace c then
        (if acc.isEmpty then goFieldsAux x [] else acc.reverse :: goFieldsAux x [])
      else goFieldsAux x (c :: acc) := rfl

theorem goFieldsAux_token (w : Str) : ∀ (rest acc : Str),
    (∀ c ∈ w, goIsSpace c = false) →
    goFieldsAux (w ++ rest) acc = goFieldsAux rest (w.reverse ++ acc) := by
  induction w with
  | nil => intro rest acc _; simp
  | cons c w' ih =>
    intro rest acc hw
    have hc : goIsSpace c = false := hw c (List.mem_cons_self c w')
    rw [List.cons_append, goFieldsAux_cons, if_neg (by simp [hc]),
      ih rest (c :: acc) (fun x hx => hw x (List.mem_cons_of_mem c hx))]
    simp

theorem goFields_canonical (ns : List Str)
    (hw : ∀ n ∈ ns, n ≠ [] ∧ ∀ c ∈ n, goIsSpace c = false) :
    goFields (List.intercalate ['\t'] ns) = ns := by
  induction ns with
  | nil => rfl
  | cons n ns' ih =>
    have hn := hw n (List.mem_cons_self n ns')
    cases ns' with
    | nil =>
      rw [intercalate_one]
      have h1 := goFieldsAux_token n [] [] hn.2
      rw [List.append_nil, List.append_nil] at h1
      unfold goFields
      rw [h1, goFieldsAux_nil]
      simp [List.isEmpty_iff, hn.1]
    | cons m ns'' =>
      rw [intercalate_pair]
      unfold goFields
      have h1 := goFieldsAux_token n ('\t' :: List.intercalate ['\t'] (m :: ns'')) [] hn.2
      rw [List.append_nil] at h1
      rw [h1, goFieldsAux_cons]
      have ht : goIsSpace '\t' = true := rfl
      rw [if_pos ht, if_neg (by simp [List.isEmpty_iff, hn.1])]
      rw [List.reverse_reverse]
      rw [show goFieldsAux (List.intercalate ['\t'] (m :: ns'')) [] =
          goFields (List.intercalate ['\t'] (m :: ns'')) from rfl,
        ih (fun x hx => hw x (List.mem_cons_of_mem n hx))]

/-! ## Round-trip development: the shape of a generated line -/

theorem names_foldl_eq (ns : List Str) : ∀ acc : Str, ns ≠ [] →
    ns.foldl (fun a n => a ++ '\t' :: n) acc =
      acc ++ '\t' :: List.intercalate ['\t'] ns := by
  induction ns with
  | nil => intro acc h; exact absurd rfl h
  | cons n ns' ih =>
    intro acc _
    cases ns' with
    | nil => simp [intercalate_one]
    | cons m ns'' =>
      rw [intercalate_pair]
      rw [show (n :: m :: ns'').foldl (fun a n => a ++ '\t' :: n) acc =
          (m :: ns'').foldl (fun a n => a ++ '\t' :: n) (acc ++ '\t' :: n) from rfl]
      rw [ih (acc ++ '\t' :: n) (by simp)]
      simp

theorem entryString_shape (e : PEntry) (hne : e.names ≠ []) :
    entryString e = (if e.disabled then ['#', ' '] else []) ++
      (e.ip ++ '\t' :: (List.intercalate ['\t'] e.names ++ commentTail e)) := by
  unfold entryString
  rw [names_foldl_eq e.names [] hne]
  cases e.disabled <;> simp

theorem mem_intercalate_tab (ns : List Str) : ∀ c : Char,
    c ∈ List.intercalate ['\t'] ns → c = '\t' ∨ ∃ n ∈ ns, c ∈ n := by
  induction ns with
  | nil => intro c hc; simp [List.intercalate] at hc
  | cons n ns' ih =>
    intro c hc
    cases ns' with
    | nil =>
      rw [intercalate_one] at hc
      exact Or.inr ⟨n, List.mem_cons_self n [], hc⟩
    | cons m ns'' =>
      rw [intercalate_pair] at hc
      rcases List.mem_append.mp hc with h | h
      · exact Or.inr ⟨n, List.mem_cons_self n _, h⟩
      · rcases List.mem_cons.mp h with h | h
        · exact Or.inl h
        · rcases ih c h with h | ⟨x, hx, hcx⟩
          · exact Or.inl h
          · exact Or.inr ⟨x, List.mem_cons_of_mem n hx, hcx⟩

theorem intercalate_getLast_plain (ns : List Str) :
    (∀ n ∈ ns, PlainWord n) → ns ≠ [] →
    ∀ y, (List.intercalate ['\t'] ns).getLast? = some y → PlainCh y := by
  induction ns with
  | nil => intro _ hne; exact absurd rfl hne
  | cons n ns' ih =>
    intro hw _ y hy
    cases ns' with
    | nil =>
      rw [intercalate_one] at hy
      exact (hw n (List.mem_cons_self n [])).2 y (List.mem_of_mem_getLast? hy)
    | cons m ns'' =>
      rw [intercalate_pair] at hy
      obtain ⟨d, ds, hd, _⟩ := intercalate_head_plain (m :: ns'') (by simp)
        (fun x hx => hw x (List.mem_cons_of_mem n hx))
      rw [List.getLast?_append_cons, hd] at hy
      apply ih (fun x hx => hw x (List.mem_cons_of_mem n hx)) (by simp) y
      rw [hd]
      exact hy

theorem entryString_head (e : PEntry) (h : GoodEntry e) :
    ∃ d ds, entryString e = d :: ds ∧ goIsSpace d = false ∧
      ((d = '#') ↔ e.disabled = true) := by
  rw [entryString_shape e h.2.1]
  cases hd : e.disabled with
  | true =>
    refine ⟨'#', ' ' :: (e.ip ++ '\t' :: (List.intercalate ['\t'] e.names ++
      commentTail e)), by simp, by decide, by simp⟩
  | false =>
    obtain ⟨x, ip', hx⟩ : ∃ x ip', e.ip = x :: ip' := by
      cases hip : e.ip with
      | nil => exact absurd (hip ▸ (isValidIP_plain e.ip h.1).1) (by simp)
      | cons a b => exact ⟨a, b, rfl⟩
    have hxp : PlainCh x := (isValidIP_plain e.ip h.1).2 x (hx ▸ List.mem_cons_self x ip')
    refine ⟨x, ip' ++ '\t' :: (List.intercalate ['\t'] e.names ++ commentTail e),
      by rw [hx]; simp, hxp.not_goSpace, ?_⟩
    simp [hxp.2.2]

theorem entryString_last (e : PEntry) (h : GoodEntry e) :
    ∀ y, (entryString e).getLast? = some y → goIsSpace y = false := by
  intro y hy
  have hw : ∀ n ∈ e.names, PlainWord n :=
    fun n hn => isValidHostname_plain n (h.2.2.1 n hn)
  rw [entryString_shape e h.2.1,
    show ((if e.disabled then ['#', ' '] else []) ++
      (e.ip ++ '\t' :: (List.intercalate ['\t'] e.names ++ commentTail e))).getLast? =
      ('\t' :: (List.intercalate ['\t'] e.names ++ commentTail e)).getLast? from by
        rw [← List.append_assoc, List.getLast?_append_cons]] at hy
  cases hc : e.comment with
  | cons a cs =>
    have hct : commentTail e = '\t' :: '#' :: ' ' :: e.comment := by
      unfold commentTail
      rw [if_neg (by rw [hc]; simp)]
    rw [hct,
      show ('\t' :: (List.intercalate ['\t'] e.names ++ '\t' :: '#' :: ' ' :: e.comment)) =
        ('\t' :: List.intercalate ['\t'] e.names) ++ '\t' :: '#' :: ' ' :: e.comment from by
          simp,
      List.getLast?_append_cons, hc,
      show ('\t' :: '#' :: ' ' :: a :: cs) = ['\t', '#', ' '] ++ a :: cs from rfl,
      List.getLast?_append_cons, ← hc] at hy
    exact trim_self_last e.comment h.2.2.2.1 y hy
  | nil =>
    have hct : commentTail e = [] := by
      unfold commentTail
      rw [if_pos (by rw [hc]; rfl)]
    rw [hct, List.append_nil] at hy
    obtain ⟨d, ds, hd, _⟩ := intercalate_head_plain e.names h.2.1 hw
    rw [hd, show ('\t' :: d :: ds) = ['\t'] ++ d :: ds from rfl,
      List.getLast?_append_cons, ← hd] at hy
    exact (intercalate_getLast_plain e.names hw h.2.1 y hy).not_goSpace

theorem entryString_trim_fix (e : PEntry) (h : GoodEntry e) :
    goTrimSpace (entryString e) = entryString e := by
  obtain ⟨d, ds, hd, hds, _⟩ := entryString_head e h
  apply goTrimSpace_eq_self
  · intro y hy
    rw [hd] at hy
    injection hy with hy
    rw [← hy]
    exact hds
  · exact entryString_last e h

theorem entryString_no_nl (e : PEntry) (h : GoodEntry e) :
    '\n' ∉ entryString e := by
  intro hmem
  have hip : PlainWord e.ip := isValidIP_plain e.ip h.1
  have hw : ∀ n ∈ e.names, PlainWord n :=
    fun n hn => isValidHostname_plain n (h.2.2.1 n hn)
  rw [entryString_shape e h.2.1] at hmem
  rcases List.mem_append.mp hmem with hpre | hrest
  · cases e.disabled with
    | true => simp at hpre
    | false => simp at hpre
  · rcases List.mem_append.mp hrest with hipm | htl
    · exact absurd (hip.2 '\n' hipm).2.1 (by decide)
    · rcases List.mem_cons.mp htl with htab | hIc
      · exact absurd htab (by decide)
      · rcases List.mem_append.mp hIc with hI | hct
        · rcases mem_intercalate_tab e.names '\n' hI with hnl | ⟨n, hn, hcn⟩
          · exact absurd hnl (by decide)
          · exact absurd ((hw n hn).2 '\n' hcn).2.1 (by decide)
        · unfold commentTail at hct
          by_cases hce : e.comment.isEmpty = true
          · rw [if_pos hce] at hct
            cases hct
          · rw [if_neg hce] at hct
            rcases List.mem_cons.mp hct with h1 | h1
            · exact absurd h1 (by decide)
            · rcases List.mem_cons.mp h1 with h2 | h2
              · exact absurd h2 (by decide)
              · rcases List.mem_cons.mp h2 with h3 | h3
                · exact absurd h3 (by decide)
                · exact absurd h3 h.2.2.2.2

/-! ## Round-trip development: the regex on a generated line -/

theorem matchTail_commentTail (e : PEntry)
    (htr : goTrimSpace e.comment = e.comment) (hnl : '\n' ∉ e.comment) :
    matchTail (commentTail e) = some e.comment := by
  unfold commentTail
  cases hc : e.comment with
  | nil => decide
  | cons a cs =>
    rw [if_neg (by simp), ← hc]
    exact matchTail_comment e.comment (by rw [hc]; simp)
      (fun y hy => regexSpace_of_goIsSpace y (trim_self_head e.comment htr y hy)) hnl

theorem entryMatch_canonical (e : PEntry) (h : GoodEntry e) :
    entryMatch (entryString e) =
      some ((if e.disabled then ['#', ' '] else []), e.ip,
        List.intercalate ['\t'] e.names, e.comment) := by
  have hip : PlainWord e.ip := isValidIP_plain e.ip h.1
  have hw : ∀ n ∈ e.names, PlainWord n :=
    fun n hn => isValidHostname_plain n (h.2.2.1 n hn)
  have hI := intercalate_head_plain e.names h.2.1 hw
  have htail : matchTail (commentTail e) = some e.comment :=
    matchTail_commentTail e h.2.2.2.1 h.2.2.2.2
  have hmid : midSearch [] (List.intercalate ['\t'] e.names ++ commentTail e) =
      some (List.intercalate ['\t'] e.names, e.comment) := by
    have := midSearch_words e.names [] (commentTail e) e.comment h.2.1 hw htail
    rwa [List.nil_append] at this
  have hbody : matchBody (e.ip ++ '\t' ::
      (List.intercalate ['\t'] e.names ++ commentTail e)) =
      some (e.ip, List.intercalate ['\t'] e.names, e.comment) :=
    matchBody_canonical e.ip (List.intercalate ['\t'] e.names) (commentTail e)
      e.comment hip hI hmid
  rw [entryString_shape e h.2.1]
  cases hd : e.disabled with
  | false =>
    rw [if_neg (by simp), List.nil_append]
    exact entryMatch_enabled e.ip
      (List.intercalate ['\t'] e.names ++ commentTail e) hip
      (e.ip, List.intercalate ['\t'] e.names, e.comment) hbody
  | true =>
    rw [if_pos rfl]
    obtain ⟨x, ip', hx⟩ : ∃ x ip', e.ip = x :: ip' := by
      cases hipe : e.ip with
      | nil => exact absurd (hipe ▸ hip.1) (by simp)
      | cons a b => exact ⟨a, b, rfl⟩
    have hxp : PlainCh x := hip.2 x (hx ▸ List.mem_cons_self x ip')
    rw [show (['#', ' '] ++ (e.ip ++ '\t' ::
        (List.intercalate ['\t'] e.names ++ commentTail e))) =
        '#' :: ' ' :: (e.ip ++ '\t' ::
        (List.intercalate ['\t'] e.names ++ commentTail e)) from rfl]
    exact entryMatch_disabled _ x (ip' ++ '\t' ::
      (List.intercalate ['\t'] e.names ++ commentTail e))
      (by rw [hx]; rfl) hxp
      (e.ip, List.intercalate ['\t'] e.names, e.comment) hbody

theorem isDisabledEntry_canonical (e : PEntry) (h : GoodEntry e) :
    isDisabledEntry (entryString e) = e.disabled := by
  unfold isDisabledEntry
  rw [entryMatch_canonical e h]
  cases hd : e.disabled
  · rfl
  · rfl

theorem parseLine_canonical (e : PEntry) (h : GoodEntry e) (lineNum entryID : Int) :
    parseLine (entryString e) lineNum entryID =
      Except.ok (some ⟨entryID, e.ip, e.names, e.comment, e.disabled, entryString e⟩) := by
  have hip : PlainWord e.ip := isValidIP_plain e.ip h.1
  have hw : ∀ n ∈ e.names, PlainWord n :=
    fun n hn => isValidHostname_plain n (h.2.2.1 n hn)
  have htrimIp : goTrimSpace e.ip = e.ip :=
    goTrimSpace_all_nonspace e.ip (fun c hc => (hip.2 c hc).2.1)
  have htrimI : goTrimSpace (List.intercalate ['\t'] e.names) =
      List.intercalate ['\t'] e.names := by
    apply goTrimSpace_eq_self
    · intro y hy
      obtain ⟨d, ds, hd, hdp⟩ := intercalate_head_plain e.names h.2.1 hw
      rw [hd] at hy
      injection hy with hy
      rw [← hy]
      exact hdp.not_goSpace
    · exact fun y hy => (intercalate_getLast_plain e.names hw h.2.1 y hy).not_goSpace
  have hfields : goFields (List.intercalate ['\t'] e.names) = e.names :=
    goFields_canonical e.names
      (fun n hn => ⟨(hw n hn).1, fun c hc => ((hw n hn).2 c hc).2.1⟩)
  have hfind : (e.names.find? fun n => !isValidHostname n) = none :=
    List.find?_eq_none.mpr (fun x hx => by simp [h.2.2.1 x hx])
  have hflag : (!(goTrimSpace (if e.disabled then ['#', ' '] else [])).isEmpty) =
      e.disabled := by
    cases e.disabled <;> decide
  obtain ⟨d, ds, hd, _, _⟩ := entryString_head e h
  unfold parseLine
  rw [entryString_trim_fix e h, if_neg (by rw [hd]; simp), entryMatch_canonical e h]
  simp [htrimIp, h.1, htrimI, hfields, hfind, hflag, h.2.2.2.1]

theorem parseLines_cons_good (strict : Bool) (e : PEntry) (rest : List Str)
    (ln k : Int) (hGe : GoodEntry e) :
    parseLines strict (entryString e :: rest) ln k =
      (parseLines strict rest (ln + 1) (k + 1)).map
        (fun es =>
          (⟨k, e.ip, e.names, e.comment, e.disabled, entryString e⟩ : PEntry) :: es) := by
  obtain ⟨d, ds, hd, hds, hdh⟩ := entryString_head e hGe
  have hhead : (entryString e).head? = some d := by rw [hd]; rfl
  have hEmp : (entryString e).isEmpty = false := by rw [hd]; rfl
  simp only [parseLines]
  rw [entryString_trim_fix e hGe, isDisabledEntry_canonical e hGe,
    parseLine_canonical e hGe (ln + 1) k, hEmp, hhead]
  have hfalse : (false || (decide ((some d : Option Char) = some '#') &&
      !e.disabled)) = false := by
    cases hdisc : e.disabled with
    | true => rw [hdh.mpr hdisc]; simp
    | false =>
      have hne : ¬ d = '#' := fun hq => by
        have hq2 := hdh.mp hq
        rw [hdisc] at hq2
        cases hq2
      simp [hne]
  rw [hfalse, if_neg (by simp)]

theorem parseLines_canonical (es : List PEntry) : ∀ (strict : Bool) (ln k : Int),
    (∀ e ∈ es, GoodEntry e) →
    parseLines strict (es.map entryString) ln k = .ok (renumber k es) := by
  induction es with
  | nil => intro strict ln k _; rfl
  | cons e es' ih =>
    intro strict ln k hg
    rw [List.map_cons, parseLines_cons_good strict e (es'.map entryString) ln k
      (hg e (List.mem_cons_self e es'))]
    rw [ih strict (ln + 1) (k + 1) (fun x hx => hg x (List.mem_cons_of_mem e hx))]
    rfl

/-! ## Round-trip development: the scanner on a generated document -/

theorem dropCR_eq_self (cs : Str)
    (h : ∀ y, cs.getLast? = some y → goIsSpace y = false) : dropCR cs = cs := by
  unfold dropCR
  split
  · rename_i heq
    exact absurd (h '\r' heq) (by decide)
  · rfl

theorem map_dropCR_id (lines : List Str)
    (h : ∀ l ∈ lines, ∀ y, l.getLast? = some y → goIsSpace y = false) :
    lines.map dropCR = lines := by
  induction lines with
  | nil => rfl
  | cons l ls ih =>
    rw [List.map_cons, dropCR_eq_self l (h l (List.mem_cons_self l ls)),
      ih (fun x hx => h x (List.mem_cons_of_mem l hx))]

theorem splitCh_word (w : Str) : ∀ rest : Str, '\n' ∉ w →
    splitCh '\n' (w ++ '\n' :: rest) = w :: splitCh '\n' rest := by
  induction w with
  | nil =>
    intro rest _
    rw [List.nil_append]
    unfold splitCh
    rw [if_pos rfl]
    conv_rhs => rw [← splitCh.eq_def]
  | cons c w' ih =>
    intro rest hnl
    have hc : ¬ c = '\n' := fun hq => hnl (hq ▸ List.mem_cons_self c w')
    rw [List.cons_append]
    unfold splitCh
    rw [if_neg hc, ih rest (fun hm => hnl (List.mem_cons_of_mem c hm))]
    conv_rhs => rw [← splitCh.eq_def]

theorem splitCh_nl_canonical (lines : List Str) : lines ≠ [] →
    (∀ l ∈ lines, '\n' ∉ l) →
    splitCh '\n' (List.intercalate ['\n'] lines ++ ['\n']) = lines ++ [[]] := by
  induction lines with
  | nil => intro hne _; exact absurd rfl hne
  | cons l ls ih =>
    intro _ hnl
    have hl : '\n' ∉ l := hnl l (List.mem_cons_self l ls)
    cases ls with
    | nil =>
      rw [show List.intercalate ['\n'] [l] = l from by simp [List.intercalate]]
      rw [show (['\n'] : Str) = '\n' :: [] from rfl, splitCh_word l [] hl]
      rfl
    | cons m ms =>
      rw [show List.intercalate ['\n'] (l :: m :: ms) =
          l ++ '\n' :: List.intercalate ['\n'] (m :: ms) from by
        simp [List.intercalate]]
      rw [List.append_assoc, List.cons_append, splitCh_word l _ hl,
        ih (by simp) (fun x hx => hnl x (List.mem_cons_of_mem l hx))]
      rfl

theorem goScanLines_canonical (lines : List Str) (hne : lines ≠ [])
    (hnl : ∀ l ∈ lines, '\n' ∉ l)
    (hcr : ∀ l ∈ lines, ∀ y, l.getLast? = some y → goIsSpace y = false) :
    goScanLines (List.intercalate ['\n'] lines ++ ['\n']) = lines := by
  simp only [goScanLines]
  rw [if_neg (by simp), if_pos (List.getLast?_concat _),
    splitCh_nl_canonical lines hne hnl, List.dropLast_concat]
  exact map_dropCR_id lines hcr

/-! ## Round-trip development: renumbering and the top-level parse -/

theorem renumber_proj (es : List PEntry) : ∀ k : Int,
    (renumber k es).map (fun e => (e.ip, e.names, e.comment, e.disabled)) =
      es.map (fun e => (e.ip, e.names, e.comment, e.disabled)) := by
  induction es with
  | nil => intro k; rfl
  | cons e es' ih =>
    intro k
    rw [show renumber k (e :: es') =
        { e with id := k, raw := entryString e } :: renumber (k + 1) es' from rfl,
      List.map_cons, List.map_cons, ih (k + 1)]

theorem renumber_ids (es : List PEntry) : ∀ k : Int,
    (renumber k es).map PEntry.id = idsFrom k es.length := by
  induction es with
  | nil => intro k; rfl
  | cons e es' ih =>
    intro k
    rw [show renumber k (e :: es') =
        { e with id := k, raw := entryString e } :: renumber (k + 1) es' from rfl,
      List.map_cons, List.length_cons, idsFrom_succ, ih (k + 1)]

theorem entryString_renumber (es : List PEntry) : ∀ k : Int,
    (renumber k es).map entryString = es.map entryString := by
  induction es with
  | nil => intro k; rfl
  | cons e es' ih =>
    intro k
    rw [show renumber k (e :: es') =
        { e with id := k, raw := entryString e } :: renumber (k + 1) es' from rfl,
      List.map_cons, List.map_cons, ih (k + 1)]
    rfl

theorem goParse_canonical (strict : Bool) (es : List PEntry) (p : Str)
    (hgood : ∀ e ∈ es, GoodEntry e) :
    goParse strict (serialize ⟨es, p⟩) = .ok ⟨renumber 1 es, []⟩ := by
  cases es with
  | nil => rfl
  | cons e es' =>
    have hw : ∀ l ∈ (e :: es').map entryString, '\n' ∉ l := by
      intro l hl
      obtain ⟨x, hx, hlx⟩ := List.mem_map.mp hl
      rw [← hlx]
      exact entryString_no_nl x (hgood x hx)
    have hcr : ∀ l ∈ (e :: es').map entryString,
        ∀ y, l.getLast? = some y → goIsSpace y = false := by
      intro l hl
      obtain ⟨x, hx, hlx⟩ := List.mem_map.mp hl
      rw [← hlx]
      exact entryString_last x (hgood x hx)
    unfold goParse
    rw [show serialize ⟨e :: es', p⟩ =
        List.intercalate ['\n'] ((e :: es').map entryString) ++ ['\n'] from rfl]
    rw [goScanLines_canonical ((e :: es').map entryString) (by simp) hw hcr]
    rw [parseLines_canonical (e :: es') strict 0 1 hgood]
    rfl

/-! ## Claim C3 -/

/-- C3 (amended): for every hosts file whose entries are syntactically
well-formed (valid IP and hostnames, trim-fixed newline-free comment —
`GoodEntry`), parsing the serialization in either mode succeeds and
yields entries equal to the originals field-by-field (ip, names,
comment, disabled) in order, with ids reassigned sequentially from 1.
The spec's weaker premise, `Entry.IsValid` (non-empty ip and at least
one name), does not suffice: see the counterexample. -/
theorem parse_of_serialize_renumbers (strict : Bool) (es : List PEntry) (p : Str)
    (hgood : ∀ e ∈ es, GoodEntry e) :
    ∃ es', goParse strict (serialize ⟨es, p⟩) = .ok ⟨es', []⟩ ∧
      es'.map (fun e => (e.ip, e.names, e.comment, e.disabled)) =
        es.map (fun e => (e.ip, e.names, e.comment, e.disabled)) ∧
      es'.map PEntry.id = idsFrom 1 es.length :=
  ⟨renumber 1 es, goParse_canonical strict es p hgood,
    renumber_proj es 1, renumber_ids es 1⟩

/-- Witness for C3: a two-entry file (an enabled entry with id 7 and a
disabled commented entry with id 2) parses back field-by-field with ids
1, 2. -/
theorem parse_of_serialize_renumbers_witness :
    (∀ e ∈ [(⟨7, "127.0.0.1".data, ["localhost".data], [], false, []⟩ : PEntry),
      ⟨2, "192.168.1.2".data, ["disabled.local".data], "Disabled entry".data,
        true, []⟩], GoodEntry e) ∧
    (∃ es', goParse true (serialize
        ⟨[⟨7, "127.0.0.1".data, ["localhost".data], [], false, []⟩,
          ⟨2, "192.168.1.2".data, ["disabled.local".data],
            "Disabled entry".data, true, []⟩], []⟩) = .ok ⟨es', []⟩ ∧
      es'.map (fun e => (e.ip, e.names, e.comment, e.disabled)) =
        [(⟨7, "127.0.0.1".data, ["localhost".data], [], false, []⟩ : PEntry),
          ⟨2, "192.168.1.2".data, ["disabled.local".data],
            "Disabled entry".data, true, []⟩].map
          (fun e => (e.ip, e.names, e.comment, e.disabled)) ∧
      es'.map PEntry.id = idsFrom 1 2) :=
  ⟨by decide, parse_of_serialize_renumbers true
    [⟨7, "127.0.0.1".data, ["localhost".data], [], false, []⟩,
      ⟨2, "192.168.1.2".data, ["disabled.local".data], "Disabled entry".data,
        true, []⟩] [] (by decide)⟩

/-- Counterexample for C3 as stated: the single-entry file with ip
`"x"` and name `"a"` satisfies `Entry.IsValid` (the spec's notion of an
individually valid entry), yet parsing its serialization yields no
entries in lenient mode and an invalid-IP error in strict mode, not a
renumbered copy of the file. -/
theorem parse_of_serialize_counterexample :
    (∀ e ∈ [(⟨1, "x".data, ["a".data], [], false, []⟩ : PEntry)],
      e.isValidEntry = true) ∧
    goParse false (serialize ⟨[⟨1, "x".data, ["a".data], [], false, []⟩], []⟩) =
      .ok ⟨[], []⟩ ∧
    (∃ err, goParse true (serialize
      ⟨[⟨1, "x".data, ["a".data], [], false, []⟩], []⟩) = .error err) :=
  ⟨by decide, rfl, ⟨⟨1, "x\ta".data, "invalid IP address: x".data⟩, rfl⟩⟩

/-! ## Claim C2 -/

/-- C2 (amended): for text in canonical generated form built from
syntactically well-formed entries (`GoodEntry`), parsing in either mode
succeeds and re-serializing reproduces the text exactly: entry lines
are regenerated verbatim because `Entry.String` does not depend on the
id.  For canonical text generated from entries that merely satisfy
`Entry.IsValid` the exact round trip fails: see the counterexample. -/
theorem serialize_parse_roundtrip (strict : Bool) (es : List PEntry) (p : Str)
    (hgood : ∀ e ∈ es, GoodEntry e) :
    ∃ hf', goParse strict (serialize ⟨es, p⟩) = .ok hf' ∧
      serialize hf' = serialize ⟨es, p⟩ := by
  refine ⟨⟨renumber 1 es, []⟩, goParse_canonical strict es p hgood, ?_⟩
  unfold serialize
  rw [show (⟨renumber 1 es, []⟩ : PHostsFile).entries = renumber 1 es from rfl,
    show (⟨es, p⟩ : PHostsFile).entries = es from rfl,
    entryString_renumber es 1]

/-- Witness for C2: the canonical two-line document over ip 10.0.0.5
with names web, api and comment prod round-trips byte-for-byte. -/
theorem serialize_parse_roundtrip_witness :
    (∀ e ∈ [(⟨3, "10.0.0.5".data, ["web".data, "api".data], "prod".data,
      false, []⟩ : PEntry)], GoodEntry e) ∧
    (∃ hf', goParse false (serialize
        ⟨[⟨3, "10.0.0.5".data, ["web".data, "api".data], "prod".data,
          false, []⟩], []⟩) = .ok hf' ∧
      serialize hf' = serialize
        ⟨[⟨3, "10.0.0.5".data, ["web".data, "api".data], "prod".data,
          false, []⟩], []⟩) :=
  ⟨by decide, serialize_parse_roundtrip false
    [⟨3, "10.0.0.5".data, ["web".data, "api".data], "prod".data, false, []⟩]
    [] (by decide)⟩

/-- Counterexample for C2 as stated: `"x\ta\n"` is in canonical
generated form (it is the serialization of the entry with ip `"x"` and
name `"a"`), but lenient parsing drops the line (invalid IP), so
re-serializing yields `"\n"`, not the original text. -/
theorem serialize_parse_not_exact :
    serialize ⟨[⟨1, "x".data, ["a".data], [], false, []⟩], []⟩ = "x\ta\n".data ∧
    goParse false ("x\ta\n".data) = .ok ⟨[], []⟩ ∧
    serialize (⟨[], []⟩ : PHostsFile) ≠ "x\ta\n".data :=
  ⟨rfl, rfl, by decide⟩

end Hostsctl
